import Mathlib

/-!
Verification development for the `aicleaner` repository.

The Python modules `text_cleaner.py` and `style_analyzer.py` are shallowly
embedded below.  Strings are modelled as `List Char`; Python `float` fields
of the style profile are modelled as exact rationals `ℚ` (every quantity the
claims touch is produced by exact arithmetic on counts, so `ℚ` is faithful
up to floating-point rounding, which no claim depends on); Python's
Unicode-aware character classes (`\s`, `\w`, `str.lower`) are modelled on
their ASCII behaviour, which covers every character the sources and claims
mention.  Regular-expression based code is embedded through a small
backtracking engine (`RE`/`mrun`) that mirrors Python `re` semantics
(leftmost match, greedy/lazy backtracking, MULTILINE anchors, IGNORECASE
literals); functions used inside universally quantified theorems
(`clean_whitespace`, the humanizer substitutions) are instead compiled by
hand to direct recursions, with the source regex quoted next to each.
-/

namespace AiCleaner

/-- The apostrophe character, written via its code point. -/
def apos : Char := Char.ofNat 39

/-- Replace the marker `@` by an apostrophe; used to write string literals
that contain apostrophes (such as the disclaimer phrases of
`text_cleaner.py`). -/
def withApos (s : String) : List Char :=
  s.data.map (fun c => if c = '@' then apos else c)

/-- Python `\s` (ASCII range): space, tab, newline, carriage return,
vertical tab, form feed. -/
def pyIsSpace (c : Char) : Bool :=
  c == ' ' || c == '\t' || c == '\n' || c == '\r' ||
  c == Char.ofNat 11 || c == Char.ofNat 12

/-- Python `\w` (ASCII range): letters, digits, underscore. -/
def pyIsWord (c : Char) : Bool :=
  c.isAlphanum || c == '_'

/-- Python `\d` (ASCII range). -/
def pyIsDigit (c : Char) : Bool := c.isDigit

/-- `str.lower` / `re.IGNORECASE` folding (ASCII): the same function as
`Char.toLower`, written as an explicit table so its case analysis is
transparent to proofs. -/
def pyLowerChar (c : Char) : Char :=
  match c with
  | 'A' => 'a' | 'B' => 'b' | 'C' => 'c' | 'D' => 'd' | 'E' => 'e'
  | 'F' => 'f' | 'G' => 'g' | 'H' => 'h' | 'I' => 'i' | 'J' => 'j'
  | 'K' => 'k' | 'L' => 'l' | 'M' => 'm' | 'N' => 'n' | 'O' => 'o'
  | 'P' => 'p' | 'Q' => 'q' | 'R' => 'r' | 'S' => 's' | 'T' => 't'
  | 'U' => 'u' | 'V' => 'v' | 'W' => 'w' | 'X' => 'x' | 'Y' => 'y'
  | 'Z' => 'z'
  | c => c

/-- `str.lower` on a whole string. -/
def pyLower (l : List Char) : List Char := l.map pyLowerChar

/-- Character classes occurring in the embedded patterns. -/
inductive CCls where
  /-- `.` under `re.DOTALL`. -/
  | any : CCls
  /-- `.` without `re.DOTALL` (does not match a newline). -/
  | anyNoNl : CCls
  /-- `\s`. -/
  | ws : CCls
  /-- `\w`. -/
  | word : CCls
  /-- `\d`. -/
  | digit : CCls
  /-- `[A-Z]` under `re.IGNORECASE`, i.e. any ASCII letter. -/
  | alpha : CCls
  /-- `[a-zA-Z]` (case sensitive contexts). -/
  | alphaEx : CCls
  /-- `[^c]` for a single excluded character. -/
  | notChar (c : Char) : CCls
  /-- a small explicit set, such as `[-*+]`. -/
  | inSet (s : List Char) : CCls

/-- Test of a character class on one character. -/
def CCls.test : CCls → Char → Bool
  | .any, _ => true
  | .anyNoNl, c => !(c == '\n')
  | .ws, c => pyIsSpace c
  | .word, c => pyIsWord c
  | .digit, c => pyIsDigit c
  | .alpha, c => c.isAlpha
  | .alphaEx, c => c.isAlpha
  | .notChar x, c => !(c == x)
  | .inSet s, c => s.contains c

/-- Abstract syntax of the regular-expression fragment used by the sources.
`starG`/`starL` are greedy and lazy Kleene star; `look` is a lookahead
`(?=r)`; `bol`/`eol` are the `re.MULTILINE` anchors `^`/`$`; `wb` is `\b`. -/
inductive RE where
  | eps : RE
  | lit (c : Char) : RE
  | litCI (c : Char) : RE
  | cls (k : CCls) : RE
  | seq (a b : RE) : RE
  | alt (a b : RE) : RE
  | starG (r : RE) : RE
  | starL (r : RE) : RE
  | look (r : RE) : RE
  | bol : RE
  | eol : RE
  | wb : RE

/-- Word/non-word status of an optional boundary character (`None` at the
ends of the string counts as non-word, as in Python). -/
def optIsWord : Option Char → Bool
  | none => false
  | some c => pyIsWord c

/-- Backtracking matcher in continuation style, mirroring Python `re`:
alternatives are tried left to right, `starG` prefers longer and `starL`
shorter iterations, a lookahead is atomic, and `^`/`$` use `re.MULTILINE`
semantics.  `prev` is the character just before the current position.  The
continuation receives the new `prev` and the remaining suffix; the first
success is returned.  `fuel` decreases on every recursive call so the
function is structurally recursive (and hence computes inside the kernel);
a star iteration must consume at least one character, as Python requires
of empty repetitions, so recursion depth is bounded by a small multiple of
pattern size times string length and the fuel supplied by `fuelFor` below
is always sufficient. -/
def mrun : Nat → RE → Option Char → List Char →
    (Option Char → List Char → Option (List Char)) → Option (List Char)
  | 0, _, _, _, _ => none
  | _ + 1, .eps, p, s, k => k p s
  | _ + 1, .lit _, _, [], _ => none
  | _ + 1, .lit c, _, x :: xs, k => if x == c then k (some x) xs else none
  | _ + 1, .litCI _, _, [], _ => none
  | _ + 1, .litCI c, _, x :: xs, k =>
      if pyLowerChar x == pyLowerChar c then k (some x) xs else none
  | _ + 1, .cls _, _, [], _ => none
  | _ + 1, .cls t, _, x :: xs, k => if t.test x then k (some x) xs else none
  | fuel + 1, .seq a b, p, s, k =>
      mrun fuel a p s (fun p' s' => mrun fuel b p' s' k)
  | fuel + 1, .alt a b, p, s, k =>
      match mrun fuel a p s k with
      | some o => some o
      | none => mrun fuel b p s k
  | fuel + 1, .starG r, p, s, k =>
      match mrun fuel r p s (fun p' s' =>
          if s'.length < s.length then mrun fuel (.starG r) p' s' k
          else none) with
      | some o => some o
      | none => k p s
  | fuel + 1, .starL r, p, s, k =>
      match k p s with
      | some o => some o
      | none =>
          mrun fuel r p s (fun p' s' =>
            if s'.length < s.length then mrun fuel (.starL r) p' s' k
            else none)
  | fuel + 1, .look r, p, s, k =>
      match mrun fuel r p s (fun _ _ => some []) with
      | some _ => k p s
      | none => none
  | _ + 1, .bol, p, s, k =>
      match p with
      | none => k p s
      | some c => if c == '\n' then k p s else none
  | _ + 1, .eol, p, s, k =>
      match s with
      | [] => k p s
      | c :: _ => if c == '\n' then k p s else none
  | _ + 1, .wb, p, s, k =>
      if optIsWord p != optIsWord s.head? then k p s else none

/-- Length of the leftmost-first match of `r` at exactly this position, if
any (`prev` is the character before the position). -/
def matchLenAt (fuel : Nat) (r : RE) (prev : Option Char) (s : List Char) :
    Option Nat :=
  match mrun fuel r prev s (fun _ rest => some rest) with
  | some rest => some (s.length - rest.length)
  | none => none

/-- All non-overlapping matches of `r`, scanned left to right as
`re.finditer` does, returned as `(start, length)` pairs.  A zero-length
match advances by one character (no embedded pattern matches the empty
string, so this case never fires).  The fuel is also handed to the matcher
at each position. -/
def findSpans : Nat → RE → Option Char → List Char → Nat → List (Nat × Nat)
  | 0, _, _, _, _ => []
  | _ + 1, _, _, [], _ => []
  | fuel + 1, r, prev, c :: s, pos =>
      match matchLenAt fuel r prev (c :: s) with
      | some (n + 1) =>
          (pos, n + 1) ::
            findSpans fuel r ((c :: s).get? n) (s.drop n) (pos + n + 1)
      | _ => findSpans fuel r (some c) s (pos + 1)

/-- `re.sub(r, repl, text)` restricted to patterns that cannot match the
empty string (all embedded patterns): scan left to right, replace each
non-overlapping match by `repl`. -/
def subAll : Nat → RE → List Char → Option Char → List Char → List Char
  | 0, _, _, _, s => s
  | _ + 1, _, _, _, [] => []
  | fuel + 1, r, repl, prev, c :: s =>
      match matchLenAt fuel r prev (c :: s) with
      | some (n + 1) =>
          repl ++ subAll fuel r repl ((c :: s).get? n) (s.drop n)
      | _ => c :: subAll fuel r repl (some c) s

/-- `haystack.replace(needle, repl)` for a non-empty needle: non-overlapping
replacement, left to right, replacements not rescanned.  Structural on a
fuel that `pyReplace` instantiates with the text length. -/
def pyReplaceF (needle repl : List Char) : Nat → List Char → List Char
  | 0, s => s
  | _ + 1, [] => []
  | fuel + 1, c :: s =>
      if needle ≠ [] ∧ needle.isPrefixOf (c :: s) then
        repl ++ pyReplaceF needle repl fuel (List.drop (needle.length - 1) s)
      else
        c :: pyReplaceF needle repl fuel s

/-- `haystack.replace(needle, repl)`. -/
def pyReplace (needle repl s : List Char) : List Char :=
  pyReplaceF needle repl s.length s

/-- Number of non-overlapping occurrences, as `str.count`, fuelled like
`pyReplaceF`. -/
def pyCountSubF (needle : List Char) : Nat → List Char → Nat
  | 0, _ => 0
  | _ + 1, [] => 0
  | fuel + 1, c :: s =>
      if needle ≠ [] ∧ needle.isPrefixOf (c :: s) then
        pyCountSubF needle fuel (List.drop (needle.length - 1) s) + 1
      else
        pyCountSubF needle fuel s

/-- Number of non-overlapping occurrences, as `str.count`. -/
def pyCountSub (needle s : List Char) : Nat :=
  pyCountSubF needle s.length s

/-- Python's `needle in hay` substring test. -/
def subIn (needle : List Char) : List Char → Bool
  | [] => needle.isEmpty
  | c :: s => needle.isPrefixOf (c :: s) || subIn needle s

/-- `str.split()` with no argument: split on runs of whitespace, no empty
pieces. -/
def pySplitWs : List Char → List (List Char)
  | [] => []
  | c :: s =>
      if pyIsSpace c then pySplitWs s
      else
        match s.head? with
        | none => [[c]]
        | some d =>
            if pyIsSpace d then [c] :: pySplitWs s
            else
              match pySplitWs s with
              | [] => [[c]]
              | piece :: rest => (c :: piece) :: rest

/-- `str.split(sep)` for a one-character separator: keeps empty pieces. -/
def pySplitChar (sep : Char) : List Char → List (List Char)
  | [] => [[]]
  | c :: s =>
      if c = sep then [] :: pySplitChar sep s
      else
        match pySplitChar sep s with
        | [] => [[c]]
        | piece :: rest => (c :: piece) :: rest

/-- `sep.join(pieces)`. -/
def pyJoin (sep : List Char) : List (List Char) → List Char
  | [] => []
  | [x] => x
  | x :: xs => x ++ sep ++ pyJoin sep xs

/-- `str.strip()`. -/
def pyStrip (l : List Char) : List Char :=
  ((l.dropWhile pyIsSpace).reverse.dropWhile pyIsSpace).reverse

/-- The backtick character, written via its code point. -/
def btick : Char := Char.ofNat 96

/-- Sequence of case-insensitive literals (a phrase under `re.IGNORECASE`). -/
def reStrCI : List Char → RE
  | [] => .eps
  | c :: cs => .seq (.litCI c) (reStrCI cs)

/-- Sequence of exact literals. -/
def reStrEx : List Char → RE
  | [] => .eps
  | c :: cs => .seq (.lit c) (reStrEx cs)

/-- Case-insensitive phrase from a string literal (with `@` for an
apostrophe). -/
def ci (s : String) : RE := reStrCI (withApos s)

/-- Concatenation of a list of subpatterns. -/
def cat : List RE → RE
  | [] => .eps
  | [r] => r
  | r :: rs => .seq r (cat rs)

/-- Greedy `+`. -/
def plusG (r : RE) : RE := .seq r (.starG r)

/-- Greedy `?`. -/
def optG (r : RE) : RE := .alt r .eps

/-- Fuel that is always sufficient for the embedded patterns: recursion
depth is bounded by pattern size (at most a few dozen nodes) per consumed
character, plus the scan itself. -/
def fuelFor (s : List Char) : Nat := (s.length + 16) * 64

/-- The span of `t` starting at `start` with length `len`. -/
def extractSpan (t : List Char) (start len : Nat) : List Char :=
  (t.drop start).take len

/-- Replace the span `[start, start+len)` of `t` by `repl`. -/
def replaceSpan (t : List Char) (start len : Nat) (repl : List Char) :
    List Char :=
  t.take start ++ repl ++ t.drop (start + len)

/-- `re.findall` for a pattern without groups: the matched substrings, in
document order. -/
def reFindAll (r : RE) (t : List Char) : List (List Char) :=
  (findSpans (fuelFor t) r none t 0).map (fun sp => extractSpan t sp.1 sp.2)

end AiCleaner

namespace TextCleaner

open AiCleaner

/-!
Embedding of `src/text_cleaner.py` (`class AIWatermarkRemover`).
-/

/-- The lookahead `(?=\n\n|\n[A-Z]|$)` ending most disclaimer patterns
(under `re.IGNORECASE`, `[A-Z]` matches any ASCII letter). -/
def endGuard : RE :=
  .look (.alt (.seq (.lit '\n') (.lit '\n'))
    (.alt (.seq (.lit '\n') (.cls .alpha)) .eol))

/-- `.*?(?=\n\n|\n[A-Z]|$)` with `re.DOTALL`. -/
def tailGuard : RE := .seq (.starL (.cls .any)) endGuard

/-- A disclaimer pattern `^PHRASE\b.*?(?=\n\n|\n[A-Z]|$)`. -/
def lineDisc (s : String) : RE := cat [.bol, ci s, .wb, tailGuard]

/-- An apology pattern `^PHRASE,?\s+but\b.*?(?=\n\n|\n[A-Z]|$)`. -/
def apologyDisc (s : String) : RE :=
  cat [.bol, ci s, optG (.lit ','), plusG (.cls .ws), ci "but", .wb, tailGuard]

/-- The ordered pattern list of `_compile_patterns` (lines 18-55), all
compiled with `re.IGNORECASE | re.MULTILINE | re.DOTALL`. -/
def watermark_patterns : List RE :=
  [ -- r'^As an AI\b.*?(?=\n\n|\n[A-Z]|$)'
    lineDisc "As an AI",
    -- r'^I\'m an AI\b.*?(?=\n\n|\n[A-Z]|$)'
    lineDisc "I@m an AI",
    -- r'^I am an AI\b.*?(?=\n\n|\n[A-Z]|$)'
    lineDisc "I am an AI",
    -- r'^As a language model\b.*?(?=\n\n|\n[A-Z]|$)'
    lineDisc "As a language model",
    -- r'^As an artificial intelligence\b.*?(?=\n\n|\n[A-Z]|$)'
    lineDisc "As an artificial intelligence",
    -- r'^I don\'t have\b.*?(?=\n\n|\n[A-Z]|$)'
    lineDisc "I don@t have",
    -- r'^I cannot\b.*?(?=\n\n|\n[A-Z]|$)'
    lineDisc "I cannot",
    -- r'^I\'m not able to\b.*?(?=\n\n|\n[A-Z]|$)'
    lineDisc "I@m not able to",
    -- r'^I don\'t have personal\b.*?(?=\n\n|\n[A-Z]|$)'
    lineDisc "I don@t have personal",
    -- r'^I should mention that\b.*?(?=\n\n|\n[A-Z]|$)'
    lineDisc "I should mention that",
    -- r'^I should note that\b.*?(?=\n\n|\n[A-Z]|$)'
    lineDisc "I should note that",
    -- r'^It\'s important to note\b.*?(?=\n\n|\n[A-Z]|$)'
    lineDisc "It@s important to note",
    -- r'^Please note that\b.*?(?=\n\n|\n[A-Z]|$)'
    lineDisc "Please note that",
    -- r'^I apologize,?\s+but\b.*?(?=\n\n|\n[A-Z]|$)'
    apologyDisc "I apologize",
    -- r'^I\'m sorry,?\s+but\b.*?(?=\n\n|\n[A-Z]|$)'
    apologyDisc "I@m sorry",
    -- r'^Sorry,?\s+but\b.*?(?=\n\n|\n[A-Z]|$)'
    apologyDisc "Sorry",
    -- r'^Please consult\b.*?(?=\n\n|\n[A-Z]|$)'
    lineDisc "Please consult",
    -- r'^You should consult\b.*?(?=\n\n|\n[A-Z]|$)'
    lineDisc "You should consult",
    -- r'^This is not\b.*?advice.*?(?=\n\n|\n[A-Z]|$)'
    cat [.bol, ci "This is not", .wb, .starL (.cls .any), ci "advice",
      tailGuard],
    -- r'^Always consult\b.*?(?=\n\n|\n[A-Z]|$)'
    lineDisc "Always consult",
    -- r'\s*\(As an AI[^)]*\)'
    cat [.starG (.cls .ws), .lit '(', ci "As an AI",
      .starG (.cls (.notChar ')')), .lit ')'],
    -- r'\s*\[As an AI[^\]]*\]'
    cat [.starG (.cls .ws), .lit '[', ci "As an AI",
      .starG (.cls (.notChar ']')), .lit ']'],
    -- r'\s*--\s*As an AI\b.*?(?=\n|$)'
    cat [.starG (.cls .ws), .lit '-', .lit '-', .starG (.cls .ws),
      ci "As an AI", .wb, .starL (.cls .any), .look (.alt (.lit '\n') .eol)],
    -- r'\n\n.*?(?:please consult|seek professional|not intended as).*?advice.*?$'
    cat [.lit '\n', .lit '\n', .starL (.cls .any),
      .alt (ci "please consult") (.alt (ci "seek professional")
        (ci "not intended as")),
      .starL (.cls .any), ci "advice", .starL (.cls .any), .eol],
    -- r'\n\n.*?(?:I\'m an AI|as an AI).*?$'
    cat [.lit '\n', .lit '\n', .starL (.cls .any),
      .alt (ci "I@m an AI") (ci "as an AI"), .starL (.cls .any), .eol] ]

/-- The markdown shield patterns of `_preserve_formatting_markers`
(lines 75-83), compiled with `re.MULTILINE` only (no DOTALL, no
IGNORECASE), in their fixed priority order: bold, italic, inline code,
code block, header, bullet, numbered list. -/
def markdown_patterns : List RE :=
  [ -- r'(\*\*.*?\*\*)'
    cat [.lit '*', .lit '*', .starL (.cls .anyNoNl), .lit '*', .lit '*'],
    -- r'(\*.*?\*)'
    cat [.lit '*', .starL (.cls .anyNoNl), .lit '*'],
    -- inline code: one backtick, lazy dot, one backtick
    cat [.lit btick, .starL (.cls .anyNoNl), .lit btick],
    -- code block: three backticks, lazy dot, three backticks
    cat [.lit btick, .lit btick, .lit btick, .starL (.cls .anyNoNl),
      .lit btick, .lit btick, .lit btick],
    -- r'(#{1,6}\s+.*?(?=\n|$))'
    cat [.lit '#', optG (cat [.lit '#', optG (cat [.lit '#',
      optG (cat [.lit '#', optG (cat [.lit '#', optG (.lit '#')])])])]),
      plusG (.cls .ws), .starL (.cls .anyNoNl),
      .look (.alt (.lit '\n') .eol)],
    -- r'(^\s*[-*+]\s+)'
    cat [.bol, .starG (.cls .ws), .cls (.inSet "-*+".data),
      plusG (.cls .ws)],
    -- r'(^\s*\d+\.\s+)'
    cat [.bol, .starG (.cls .ws), plusG (.cls .digit), .lit '.',
      plusG (.cls .ws)] ]

/-- The synthetic placeholder token `__FORMAT_{n}__`. -/
def placeholderStr (n : Nat) : List Char :=
  "__FORMAT_".data ++ Nat.toDigits 10 n ++ "__".data

/-- Process the matches of one shield pattern in reverse document order
(lines 87-92): each span of the pre-scan text `T` is replaced by a fresh
placeholder and recorded, the counter increasing in processing order. -/
def shieldSpans (T : List Char) (spans : List (Nat × Nat))
    (st : List Char × List (Nat × List Char) × Nat) :
    List Char × List (Nat × List Char) × Nat :=
  spans.reverse.foldl
    (fun st sp =>
      (replaceSpan st.1 sp.1 sp.2 (placeholderStr st.2.2),
       st.2.1 ++ [(st.2.2, extractSpan T sp.1 sp.2)],
       st.2.2 + 1))
    st

/-- `_preserve_formatting_markers` (lines 66-94): returns the text with
placeholders and the formatting map in insertion order. -/
def preserve_formatting_markers (text : List Char) :
    List Char × List (Nat × List Char) :=
  let st := markdown_patterns.foldl
    (fun (st : List Char × List (Nat × List Char) × Nat) r =>
      shieldSpans st.1 (findSpans (fuelFor st.1) r none st.1 0) st)
    (text, [], 0)
  (st.1, st.2.1)

/-- `_restore_formatting_markers` (lines 96-101): replace every
placeholder by its original span, in insertion order. -/
def restore_formatting_markers (text : List Char)
    (map : List (Nat × List Char)) : List Char :=
  map.foldl (fun t kv => pyReplace (placeholderStr kv.1) kv.2 t) text

/-- Greedy-match length of `re.sub(r'\n\s*\n\s*\n+', '\n\n', ...)`'s
pattern at the start of `s`, if it matches there.  Hand-compiled: the
pattern consumes only whitespace, must start with a newline, and by
greedy/backtracking semantics the leftmost match runs from that newline
through the last newline of the whitespace prefix, provided the prefix
holds at least three newlines. -/
def collapseLen (s : List Char) : Option Nat :=
  match s with
  | '\n' :: _ =>
      let w := s.takeWhile pyIsSpace
      if 3 ≤ w.count '\n' then
        some (w.length - (w.reverse.takeWhile (fun c => !(c == '\n'))).length)
      else none
  | _ => none

/-- `re.sub(r'\n\s*\n\s*\n+', '\n\n', text)` (line 134): scan left to
right, replacing each match (computed by `collapseLen`) by two newlines.
Structural on a fuel that `subCollapse` instantiates with the text length
(each step consumes at least one character, so that fuel never runs out). -/
def subCollapseF : Nat → List Char → List Char
  | 0, l => l
  | _ + 1, [] => []
  | fuel + 1, c :: s =>
      match collapseLen (c :: s) with
      | some k => '\n' :: '\n' :: subCollapseF fuel (s.drop (k - 1))
      | none => c :: subCollapseF fuel s

/-- `re.sub(r'\n\s*\n\s*\n+', '\n\n', text)` (line 134). -/
def subCollapse (l : List Char) : List Char := subCollapseF l.length l

/-- Trailing `[ \t]+` removal on a single line. -/
def rstripLine (l : List Char) : List Char :=
  (l.reverse.dropWhile (fun c => c == ' ' || c == '\t')).reverse

/-- `re.sub(r'[ \t]+$', '', text, flags=re.MULTILINE)` (line 137):
with MULTILINE `$`, this strips the trailing spaces/tabs of every
newline-separated line. -/
def rstripLines (l : List Char) : List Char :=
  pyJoin ['\n'] ((pySplitChar '\n' l).map rstripLine)

/-- `_clean_whitespace` (lines 131-142). -/
def clean_whitespace (t : List Char) : List Char :=
  pyStrip (rstripLines (subCollapse t))

/-- The disclaimer-removal passes of `clean_text` (lines 120-121): each
pattern's `sub('')` is applied in order to the current text. -/
def watermarkSub (text : List Char) : List Char :=
  watermark_patterns.foldl (fun t r => subAll (fuelFor t) r [] none t) text

/-- `clean_text` (lines 103-129). -/
def clean_text (text : List Char) : List Char :=
  if text = [] ∨ pyStrip text = [] then text
  else
    let pm := preserve_formatting_markers text
    restore_formatting_markers (clean_whitespace (watermarkSub pm.1)) pm.2

end TextCleaner

namespace StyleAnalyzer

open AiCleaner

/-!
Embedding of `src/style_analyzer.py` (`class WritingStyleAnalyzer`).
Python dicts are modelled as insertion-ordered association lists.
-/

/-- `self.style_profile` (lines 13-27).  Ratio and mean fields are exact
rationals. -/
structure StyleProfile where
  sentence_lengths : List Nat
  paragraph_lengths : List Nat
  common_words : List (List Char × Nat)
  common_phrases : List (List Char × Nat)
  punctuation_patterns : List (Char × ℚ)
  sentence_starters : List (List Char × Nat)
  transition_words : List (List Char × Nat)
  tone_indicators : List (List Char × Nat)
  contractions_usage : ℚ
  passive_voice_usage : ℚ
  avg_sentence_length : ℚ
  vocabulary_complexity : ℚ
  personal_expressions : List (List Char)
  deriving DecidableEq, Repr

/-- The initial profile built by `__init__`. -/
def defaultProfile : StyleProfile :=
  ⟨[], [], [], [], [], [], [], [], 0, 0, 0, 0, []⟩

/-- `d.get(k, v0)` on an association list. -/
def dictGet {K V : Type} [DecidableEq K] (v0 : V) : List (K × V) → K → V
  | [], _ => v0
  | kv :: d, k => if kv.1 = k then kv.2 else dictGet v0 d k

/-- `d[k] = v`: overwrite in place if present, else append (Python dicts
keep insertion order). -/
def dictSet {K V : Type} [DecidableEq K] : List (K × V) → K → V → List (K × V)
  | [], k, v => [(k, v)]
  | kv :: d, k, v => if kv.1 = k then (k, v) :: d else kv :: dictSet d k v

/-- `d[k] = d.get(k, 0) + n`. -/
def dictAdd {K : Type} [DecidableEq K] (d : List (K × Nat)) (k : K) (n : Nat) :
    List (K × Nat) :=
  dictSet d k (dictGet 0 d k + n)

/-- `d.update(other)`: overwrite each of `other`'s keys. -/
def dictUpdate {K V : Type} [DecidableEq K] (d other : List (K × V)) :
    List (K × V) :=
  other.foldl (fun d kv => dictSet d kv.1 kv.2) d

/-- First entry with the maximal count together with the remaining entries
in order (ties resolved to the earlier entry). -/
def pickMax {K : Type} : List (K × Nat) → Option ((K × Nat) × List (K × Nat))
  | [] => none
  | kv :: d =>
      match pickMax d with
      | none => some (kv, [])
      | some (kv', rest) =>
          if kv'.2 > kv.2 then some (kv', kv :: rest) else some (kv, d)

/-- `Counter.most_common(n)`: the `n` highest-count entries in descending
count order, ties in insertion order (Python's `nlargest` is equivalent to
a stable descending sort). -/
def mostCommon {K : Type} : Nat → List (K × Nat) → List (K × Nat)
  | 0, _ => []
  | n + 1, d =>
      match pickMax d with
      | none => []
      | some (kv, rest) => kv :: mostCommon n rest

/-- A `Counter` built over a list of keys in order. -/
def counterOf {K : Type} [DecidableEq K] (ks : List K) : List (K × Nat) :=
  ks.foldl (fun d w => dictAdd d w 1) []

/-- `re.sub(r'\n\s*\n', '\n\n', text)` (line 53). -/
def sampleWs1 (t : List Char) : List Char :=
  subAll (fuelFor t) (cat [.lit '\n', .starG (.cls .ws), .lit '\n'])
    "\n\n".data none t

/-- `re.sub(r'[ \t]+', ' ', text)` (line 54). -/
def sampleWs2 (t : List Char) : List Char :=
  subAll (fuelFor t) (plusG (.cls (.inSet [' ', '\t']))) " ".data none t

/-- `_clean_text` (lines 50-55). -/
def clean_sample (t : List Char) : List Char :=
  pyStrip (sampleWs2 (sampleWs1 t))

/-- A sentence-ending character of `re.split(r'[.!?]+', ...)`. -/
def isSentEnd (c : Char) : Bool := c == '.' || c == '!' || c == '?'

/-- `re.split(r'[.!?]+', text)`: split on maximal runs of the three
terminators, keeping the (possibly empty) first and last pieces, exactly
as Python does. -/
def splitSentRuns : List Char → List (List Char)
  | [] => [[]]
  | c :: s =>
      let r := splitSentRuns s
      if isSentEnd c then
        match s.head? with
        | some d => if isSentEnd d then r else [] :: r
        | none => [] :: r
      else
        match r with
        | [] => [[c]]
        | piece :: rest => (c :: piece) :: rest

/-- `_extract_sentences` (lines 57-61). -/
def extract_sentences (t : List Char) : List (List Char) :=
  ((splitSentRuns t).map pyStrip).filter (fun s => s ≠ [])

/-- `str.split(sep)` for a multi-character separator, fuelled. -/
def pySplitSubF (sep : List Char) : Nat → List Char → List (List Char)
  | 0, s => [s]
  | _ + 1, [] => [[]]
  | fuel + 1, c :: s =>
      if sep ≠ [] ∧ sep.isPrefixOf (c :: s) then
        [] :: pySplitSubF sep fuel (List.drop (sep.length - 1) s)
      else
        match pySplitSubF sep fuel s with
        | [] => [[c]]
        | piece :: rest => (c :: piece) :: rest

/-- `str.split(sep)` for a multi-character separator. -/
def pySplitSub (sep s : List Char) : List (List Char) :=
  pySplitSubF sep s.length s

/-- `_extract_paragraphs` (lines 63-66): split on blank lines. -/
def extract_paragraphs (t : List Char) : List (List Char) :=
  ((pySplitSub "\n\n".data t).map pyStrip).filter (fun p => p ≠ [])

/-- `_analyze_sentence_structure` (lines 68-84). -/
def analyze_sentence_structure (p : StyleProfile)
    (sentences : List (List Char)) : StyleProfile :=
  let lengths := sentences.map (fun s => (pySplitWs s).length)
  let p := { p with sentence_lengths := p.sentence_lengths ++ lengths }
  let p :=
    if lengths ≠ [] then
      { p with avg_sentence_length := (lengths.sum : ℚ) / lengths.length }
    else p
  let starters := sentences.foldl
    (fun d s =>
      match pySplitWs s with
      | [] => d
      | w :: _ => dictAdd d (pyLower w) 1)
    []
  { p with sentence_starters := dictUpdate p.sentence_starters starters }

/-- `r'\b[a-zA-Z]+\b'` (line 92). -/
def alphaWordPat : RE := cat [.wb, plusG (.cls .alphaEx), .wb]

/-- `r'\b\w+\s+\w+\b'` (line 108). -/
def bigramPat : RE :=
  cat [.wb, plusG (.cls .word), plusG (.cls .ws), plusG (.cls .word), .wb]

/-- `r'\b\w+\s+\w+\s+\w+\b'` (line 109). -/
def trigramPat : RE :=
  cat [.wb, plusG (.cls .word), plusG (.cls .ws), plusG (.cls .word),
    plusG (.cls .ws), plusG (.cls .word), .wb]

/-- The stop-word list of line 98. -/
def stopWords : List (List Char) :=
  ["the", "a", "an", "and", "or", "but", "in", "on", "at", "to", "for",
    "of", "with", "by"].map String.data

/-- `_analyze_vocabulary` (lines 86-113). -/
def analyze_vocabulary (p : StyleProfile) (sentences : List (List Char)) :
    StyleProfile :=
  let all_words := sentences.flatMap (fun s => reFindAll alphaWordPat (pyLower s))
  let word_counts := counterOf all_words
  let cw := (mostCommon 50 word_counts).foldl
    (fun d kv => if stopWords.contains kv.1 then d else dictAdd d kv.1 kv.2)
    p.common_words
  let p := { p with common_words := cw }
  let p :=
    if all_words ≠ [] then
      { p with vocabulary_complexity :=
          ((all_words.map List.length).sum : ℚ) / all_words.length }
    else p
  let text_joined := pyLower (pyJoin " ".data sentences)
  let phrases := reFindAll bigramPat text_joined ++ reFindAll trigramPat text_joined
  let cp := (phrases.filter (fun ph => 2 ≤ (pySplitWs ph).length)).foldl
    (fun d ph => dictAdd d ph 1) p.common_phrases
  { p with common_phrases := cp }

/-- `r"\b\w+'\w+\b"` (line 120). -/
def contractionPat : RE :=
  cat [.wb, plusG (.cls .word), .lit apos, plusG (.cls .word), .wb]

/-- The passive-voice cue words of line 126. -/
def passiveIndicators : List (List Char) :=
  ["was", "were", "been", "being", "be"].map String.data

/-- The transition-word list of lines 132-133. -/
def transitionWords : List (List Char) :=
  ["however", "therefore", "moreover", "furthermore", "nevertheless",
    "meanwhile", "consequently", "thus", "hence", "accordingly"].map
    String.data

/-- The personal-expression phrases of lines 141-145 (each is matched with
word boundaries on both sides). -/
def personalMarkers : List (List Char) :=
  ["i think", "i believe", "in my opinion", "i feel", "to me",
    "personally", "obviously", "clearly", "basically", "actually",
    "honestly"].map String.data

/-- `_analyze_tone_and_style` (lines 115-150). -/
def analyze_tone_and_style (p : StyleProfile)
    (sentences : List (List Char)) : StyleProfile :=
  let text := pyLower (pyJoin " ".data sentences)
  let contractions := (reFindAll contractionPat text).length
  let total_words := (pySplitWs text).length
  let p :=
    if total_words > 0 then
      { p with contractions_usage := (contractions : ℚ) / total_words }
    else p
  let passive_count :=
    (passiveIndicators.map
      (fun ind => pyCountSub (' ' :: ind ++ [' ']) text)).sum
  let p :=
    if sentences.length > 0 then
      { p with passive_voice_usage :=
          (passive_count : ℚ) / sentences.length }
    else p
  let tw := transitionWords.foldl
    (fun d tr =>
      let count := pyCountSub tr text
      if count > 0 then dictSet d tr count else d)
    p.transition_words
  let p := { p with transition_words := tw }
  let pe := personalMarkers.foldl
    (fun es mk => es ++ reFindAll (cat [.wb, reStrEx mk, .wb]) text)
    p.personal_expressions
  { p with personal_expressions := pe }

/-- The fixed punctuation-character set of line 158. -/
def punctChars : List Char :=
  ".,;:!?-()[]".data ++
    [Char.ofNat 123, Char.ofNat 125, Char.ofNat 34, apos, '/']

/-- `_analyze_punctuation` (lines 152-165); counts are taken over the
original, unnormalized sample. -/
def analyze_punctuation (p : StyleProfile) (text : List Char) :
    StyleProfile :=
  let punctuation_counts :=
    text.foldl (fun d c => if punctChars.contains c then dictAdd d c 1 else d) []
  let total_chars := text.length
  if total_chars > 0 then
    let pp := punctuation_counts.foldl
      (fun d kv => dictSet d kv.1 ((kv.2 : ℚ) / total_chars))
      p.punctuation_patterns
    { p with punctuation_patterns := pp }
  else p

/-- `_analyze_paragraph_structure` (lines 167-170). -/
def analyze_paragraph_structure (p : StyleProfile)
    (paragraphs : List (List Char)) : StyleProfile :=
  { p with paragraph_lengths :=
      p.paragraph_lengths ++ paragraphs.map (fun q => (pySplitWs q).length) }

/-- `analyze_writing_sample` (lines 29-48): mutates the profile through
the five analysis passes, or returns it unchanged on a whitespace-only
sample. -/
def analyze_writing_sample (p : StyleProfile) (text : List Char) :
    StyleProfile :=
  if pyStrip text = [] then p
  else
    let cleaned := clean_sample text
    let sentences := extract_sentences cleaned
    let paragraphs := extract_paragraphs cleaned
    let p := analyze_sentence_structure p sentences
    let p := analyze_vocabulary p sentences
    let p := analyze_tone_and_style p sentences
    let p := analyze_punctuation p text
    analyze_paragraph_structure p paragraphs

/-- What opening and parsing the persisted profile file can yield.  The
file system and `json.load` are modelled abstractly: `missing` is a
raised `FileNotFoundError`, `invalid` a file whose contents `json.load`
rejects (it raises `JSONDecodeError`, a `ValueError`), and `parsed p` a
file that deserializes to the profile `p`. -/
inductive ProfileFile where
  | missing : ProfileFile
  | invalid : ProfileFile
  | parsed (p : StyleProfile) : ProfileFile
  deriving DecidableEq

/-- `load_profile` (lines 177-183): only `FileNotFoundError` is caught
(the profile is left as it was and a message is printed); any parse error
propagates to the caller as an uncaught exception, modelled as `.error`. -/
def load_profile (current : StyleProfile) : ProfileFile →
    Except Unit StyleProfile
  | .missing => .ok current
  | .invalid => .error ()
  | .parsed p => .ok p

/-- The sentences the analysis passes receive for a sample `t`. -/
def sampleSentences (t : List Char) : List (List Char) :=
  extract_sentences (clean_sample t)

/-- The lowercased joined text the tone pass works on (line 117). -/
def toneJoined (t : List Char) : List Char :=
  pyLower (pyJoin " ".data (sampleSentences t))

/-- The whitespace-split token count of the tone pass (line 121). -/
def sampleTokenCount (t : List Char) : Nat :=
  (pySplitWs (toneJoined t)).length

/-- The contraction-token count of the tone pass (line 120). -/
def sampleContractions (t : List Char) : Nat :=
  (reFindAll contractionPat (toneJoined t)).length

/-- The passive-cue count of the tone pass (line 127). -/
def samplePassiveCues (t : List Char) : Nat :=
  (passiveIndicators.map
    (fun ind => pyCountSub (' ' :: ind ++ [' ']) (toneJoined t))).sum

/-- Claim C6 (amended): the ratio bounds the analyzer really maintains —
every punctuation ratio lies in `[0, 1]`, while `contractions_usage` and
`passive_voice_usage` are merely nonnegative (they can exceed 1). -/
def RatiosOK (p : StyleProfile) : Prop :=
  (∀ kv ∈ p.punctuation_patterns, 0 ≤ kv.2 ∧ kv.2 ≤ 1) ∧
    0 ≤ p.contractions_usage ∧ 0 ≤ p.passive_voice_usage

end StyleAnalyzer

namespace Humanizer

open AiCleaner
open StyleAnalyzer (splitSentRuns)

/-!
Embedding of `src/style_analyzer.py` (`class TextHumanizer`).
-/

/-- The profile dict handed to `TextHumanizer`: every field the class
reads through `.get` is optional, so that the stated defaults are
observable. -/
structure HProfile where
  avg_sentence_length : Option ℚ
  contractions_usage : Option ℚ
  personal_expressions : Option (List (List Char))
  vocabulary_complexity : Option ℚ
  common_words : Option (List (List Char × Nat))
  passive_voice_usage : Option ℚ
  deriving DecidableEq, Repr

/-- The randomness consumed by `_inject_personal_style` (the spec asks for
a swappable source): `r01` models `random.random()`, `pick` seeds
`random.randint(0, n-1)` as `pick % n`, and `coin` models
`random.choice(['think', 'believe']) == 'think'`. -/
structure Rng where
  r01 : ℚ
  pick : Nat
  coin : Bool
  deriving DecidableEq, Repr

/-- The splitting conjunctions of line 241. -/
def conjunctions : List (List Char) :=
  ["and", "but", "however", "therefore", "moreover"].map String.data

/-- The word indices whose lowercased word is a splitting conjunction
(lines 239-242). -/
def splitPoints (words : List (List Char)) : List Nat :=
  (words.enum.filter (fun iw => conjunctions.contains (pyLower iw.2))).map
    (fun iw => iw.1)

/-- Distance of a split point from the integer midpoint,
`abs(x - len(words)//2)`. -/
def midDist (mid x : Nat) : Nat := ((x : ℤ) - (mid : ℤ)).natAbs

/-- `min(split_points, key=lambda x: abs(x - len(words)//2))`: Python's
`min` keeps the first of several minimizers. -/
def minByDistAux (mid : Nat) (best : Nat) : List Nat → Nat
  | [] => best
  | x :: xs =>
      if midDist mid x < midDist mid best then minByDistAux mid x xs
      else minByDistAux mid best xs

/-- The loop body of `_adjust_sentence_length` (lines 229-253) for one
non-blank sentence: the fragments it contributes to
`adjusted_sentences`. -/
def processSentence (target : ℚ) (sentence : List Char) :
    List (List Char) :=
  let words := pySplitWs (pyStrip sentence)
  if (words.length : ℚ) > target * 1.5 then
    match splitPoints words with
    | [] => [pyStrip sentence]
    | x :: xs =>
        let split_at := minByDistAux (words.length / 2) x xs
        [pyStrip (pyJoin " ".data (words.take split_at)),
          pyStrip (pyJoin " ".data (words.drop split_at))]
  else [pyStrip sentence]

/-- The list `adjusted_sentences` built by the loop of
`_adjust_sentence_length` (lines 227-253): blank sentences are skipped and
each remaining one contributes its fragments. -/
def stage1Fragments (p : HProfile) (text : List Char) : List (List Char) :=
  ((splitSentRuns text).filter (fun s => pyStrip s ≠ [])).flatMap
    (processSentence (p.avg_sentence_length.getD 15))

/-- `_adjust_sentence_length` (lines 222-255). -/
def adjust_sentence_length (p : HProfile) (text : List Char) : List Char :=
  let adjusted := stage1Fragments p text
  pyJoin ". ".data adjusted ++ (if adjusted ≠ [] then ['.'] else [])

/-- Case-insensitive prefix test. -/
def ciPrefix : List Char → List Char → Bool
  | [], _ => true
  | _ :: _, [] => false
  | a :: as, b :: bs => pyLowerChar a == pyLowerChar b && ciPrefix as bs

/-- Whether `re.sub(r'\b' + phrase + r'\b', ..., flags=re.IGNORECASE)`
matches at this position: the phrase (all letters and single spaces, so
it has no metacharacters and matches a span of its own length) compares
case-insensitively, with word boundaries on both sides. -/
def phraseAt (phrase : List Char) (prev : Option Char) (s : List Char) :
    Bool :=
  phrase ≠ [] && ciPrefix phrase s &&
    (optIsWord prev != optIsWord s.head?) &&
    (optIsWord (s.get? (phrase.length - 1)) != optIsWord (s.get? phrase.length))

/-- `re.sub(r'\b' + phrase + r'\b', repl, text, flags=re.IGNORECASE)`:
left-to-right non-overlapping replacement, hand-compiled (fuelled with the
text length). -/
def replacePhraseCIF (phrase repl : List Char) :
    Nat → Option Char → List Char → List Char
  | 0, _, s => s
  | _ + 1, _, [] => []
  | fuel + 1, prev, c :: s =>
      if phraseAt phrase prev (c :: s) then
        repl ++ replacePhraseCIF phrase repl fuel
          ((c :: s).get? (phrase.length - 1)) (s.drop (phrase.length - 1))
      else
        c :: replacePhraseCIF phrase repl fuel (some c) s

/-- `re.sub(r'\b' + phrase + r'\b', repl, text, flags=re.IGNORECASE)`. -/
def replacePhraseCI (phrase repl t : List Char) : List Char :=
  replacePhraseCIF phrase repl t.length none t

/-- The contraction map of lines 263-269. -/
def contractions_map : List (List Char × List Char) :=
  [("do not", "don@t"), ("does not", "doesn@t"), ("did not", "didn@t"),
    ("will not", "won@t"), ("would not", "wouldn@t"),
    ("could not", "couldn@t"), ("should not", "shouldn@t"),
    ("cannot", "can@t"), ("is not", "isn@t"), ("are not", "aren@t"),
    ("was not", "wasn@t"), ("were not", "weren@t"),
    ("have not", "haven@t"), ("has not", "hasn@t"),
    ("had not", "hadn@t")].map
    (fun fi => (withApos fi.1, withApos fi.2))

/-- The three guard phrases of line 285. -/
def opinionGuards : List (List Char) :=
  ["i think", "i believe", "in my opinion"].map String.data

/-- `_inject_personal_style` (lines 257-292). -/
def inject_personal_style (p : HProfile) (rng : Rng) (text : List Char) :
    List Char :=
  let contraction_rate := p.contractions_usage.getD 0
  let text :=
    if contraction_rate > 0.1 then
      contractions_map.foldl (fun t fi => replacePhraseCI fi.1 fi.2 t) text
    else text
  let pes := p.personal_expressions.getD []
  if pes ≠ [] ∧ (pySplitChar '.' text).length > 1 then
    let sentences := pySplitChar '.' text
    if sentences.length > 1 then
      let sentences :=
        if rng.r01 < 0.3 then
          let idx := rng.pick % (sentences.length - 1)
          let sentence := pyStrip (sentences.getD idx [])
          if sentence ≠ [] ∧
              ¬ opinionGuards.any (fun e => subIn e (pyLower sentence)) then
            sentences.set idx
              ((if rng.coin then "I think ".data else "In my opinion, ".data)
                ++ pyLower sentence)
          else sentences
        else sentences
      pyJoin ". ".data sentences
    else text
  else text

/-- The complex-to-simple vocabulary map of lines 301-306. -/
def complex_to_simple : List (List Char × List Char) :=
  [("utilize", "use"), ("commence", "start"), ("terminate", "end"),
    ("demonstrate", "show"), ("facilitate", "help"), ("implement", "do"),
    ("acquire", "get"), ("substantial", "big"), ("eliminate", "remove"),
    ("approximately", "about"), ("consequently", "so"),
    ("furthermore", "also")].map (fun cs => (cs.1.data, cs.2.data))

/-- `_adjust_vocabulary` (lines 294-319).  The personalized-synonym loop
over the profile's top words (lines 312-317) performs no substitution, so
it does not appear in the result. -/
def adjust_vocabulary (p : HProfile) (text : List Char) : List Char :=
  let target_complexity := p.vocabulary_complexity.getD 5
  if target_complexity < 5 then
    complex_to_simple.foldl (fun t cs => replacePhraseCI cs.1 cs.2 t) text
  else text

/-- Does a word run of length at least three ending in `ed` start here?
Returns the run on success.  This is `(\w+ed)\b` after `\s+`: the greedy
group must end at the end of the word run (the following `\b` or `\s`
forbids stopping inside it), so it matches exactly when the whole run ends
in literal `ed` after at least one more word character. -/
def edGroup (s : List Char) : Option (List Char) :=
  let run := s.takeWhile pyIsWord
  match run.reverse with
  | d :: e :: _ :: _ => if d = 'd' ∧ e = 'e' then some run else none
  | _ => none

/-- One attempted match of `r'\bis being\s+(\w+ed)\b'` (line 328) at the
current position: on success, returns the captured group and the suffix
after the match. -/
def isBeingAt (prev : Option Char) (s : List Char) :
    Option (List Char × List Char) :=
  if optIsWord prev then none
  else if "is being".data.isPrefixOf s then
    let rest0 := s.drop 8
    let spaces := rest0.takeWhile pyIsSpace
    if spaces = [] then none
    else
      match edGroup (rest0.drop spaces.length) with
      | some run => some (run, rest0.drop (spaces.length + run.length))
      | none => none
  else none

/-- `re.sub(r'\bis being\s+(\w+ed)\b', r'is \1ing', text)` (line 328),
fuelled with the text length.  Note the source keeps the captured `ed` and
appends `ing` after it. -/
def isBeingSubF : Nat → Option Char → List Char → List Char
  | 0, _, s => s
  | _ + 1, _, [] => []
  | fuel + 1, prev, c :: s =>
      match isBeingAt prev (c :: s) with
      | some (run, rest) =>
          "is ".data ++ run ++ "ing".data ++
            isBeingSubF fuel run.getLast? rest
      | none => c :: isBeingSubF fuel (some c) s

/-- `re.sub(r'\bis being\s+(\w+ed)\b', r'is \1ing', text)`. -/
def isBeingSub (t : List Char) : List Char := isBeingSubF t.length none t

/-- One attempted match of `r'\bwas\s+(\w+ed)\s+by\s+(\w+)'` (line 329) at
the current position: on success, returns both captured groups and the
suffix after the match. -/
def wasByAt (prev : Option Char) (s : List Char) :
    Option (List Char × List Char × List Char) :=
  if optIsWord prev then none
  else if "was".data.isPrefixOf s then
    let r0 := s.drop 3
    let sp1 := r0.takeWhile pyIsSpace
    if sp1 = [] then none
    else
      match edGroup (r0.drop sp1.length) with
      | none => none
      | some run1 =>
          let r1 := r0.drop (sp1.length + run1.length)
          let sp2 := r1.takeWhile pyIsSpace
          if sp2 = [] then none
          else if "by".data.isPrefixOf (r1.drop sp2.length) then
            let r2 := r1.drop (sp2.length + 2)
            let sp3 := r2.takeWhile pyIsSpace
            if sp3 = [] then none
            else
              let run2 := (r2.drop sp3.length).takeWhile pyIsWord
              if run2 = [] then none
              else some (run1, run2, r2.drop (sp3.length + run2.length))
          else none
  else none

/-- `re.sub(r'\bwas\s+(\w+ed)\s+by\s+(\w+)', r'\2 \1', text)` (line 329),
fuelled with the text length. -/
def wasBySubF : Nat → Option Char → List Char → List Char
  | 0, _, s => s
  | _ + 1, _, [] => []
  | fuel + 1, prev, c :: s =>
      match wasByAt prev (c :: s) with
      | some (run1, run2, rest) =>
          run2 ++ ' ' :: run1 ++ wasBySubF fuel run2.getLast? rest
      | none => c :: wasBySubF fuel (some c) s

/-- `re.sub(r'\bwas\s+(\w+ed)\s+by\s+(\w+)', r'\2 \1', text)`. -/
def wasBySub (t : List Char) : List Char := wasBySubF t.length none t

/-- `_adjust_tone` (lines 321-331). -/
def adjust_tone (p : HProfile) (text : List Char) : List Char :=
  let passive_usage := p.passive_voice_usage.getD 0
  if passive_usage < 0.1 then wasBySub (isBeingSub text)
  else text

/-- `humanize_text` (lines 206-220). -/
def humanize_text (p : HProfile) (rng : Rng) (text : List Char) :
    List Char :=
  if pyStrip text = [] then text
  else
    adjust_tone p (adjust_vocabulary p
      (inject_personal_style p rng (adjust_sentence_length p text)))

/-!
Specification-side definitions, written from the claims' words (for
refinement statements); they are compared with the embedded source
functions by the theorems below and are used nowhere else.
-/

/-- Claim C5 (amended): the target length is the profile's
`avg_sentence_length` whenever the field is present — including a zero
value — and 15 only when it is absent. -/
def specTarget (p : HProfile) : ℚ :=
  match p.avg_sentence_length with
  | some a => a
  | none => 15

/-- Claim C5: the word indices carrying one of the five conjunctions,
described positionally. -/
def specConjIndices (ws : List (List Char)) : List Nat :=
  (List.range ws.length).filter
    (fun i => conjunctions.contains (pyLower (ws.getD i [])))

/-- Claim C5: "the occurrence closest (by word index) to the sentence's
midpoint", earliest on ties — the first listed index whose distance to the
midpoint is no larger than any other's. -/
def specFirstClosest (mid : Nat) (l : List Nat) : Option Nat :=
  l.find? (fun i => l.all (fun j => midDist mid i ≤ midDist mid j))

/-- Claim C5 (amended), per sentence: a sentence at or below 1.5 times the
target, or with no conjunction, passes through intact; otherwise it is
split into exactly two fragments at the conjunction occurrence closest to
the midpoint (words before it, and words from it onward). -/
def specFragments (target : ℚ) (s : List Char) : List (List Char) :=
  let ws := pySplitWs (pyStrip s)
  if (ws.length : ℚ) ≤ target * 1.5 then [pyStrip s]
  else
    match specFirstClosest (ws.length / 2) (specConjIndices ws) with
    | none => [pyStrip s]
    | some i =>
        [pyStrip (pyJoin " ".data (ws.take i)),
          pyStrip (pyJoin " ".data (ws.drop i))]

/-- Claim C5 (amended): stage 1 as the claim describes it. -/
def specAdjust (p : HProfile) (t : List Char) : List Char :=
  let frags :=
    ((splitSentRuns t).filter (fun s => pyStrip s ≠ [])).flatMap
      (specFragments (specTarget p))
  pyJoin ". ".data frags ++ (if frags ≠ [] then ['.'] else [])

end Humanizer

namespace AiCleaner

/-- Proof-internal relation: `WsDel u v` holds when `v` arises from `u` by
deleting some space or tab characters (the only deletions the
`[ \t]+$` pass performs). -/
inductive WsDel : List Char → List Char → Prop
  | nil : WsDel [] []
  | keep (c : Char) {u v : List Char} : WsDel u v → WsDel (c :: u) (c :: v)
  | del {c : Char} {u v : List Char} :
      (c == ' ' || c == '\t') = true → WsDel u v → WsDel (c :: u) v

/-- Proof-internal scan: no space or tab stands immediately before a
newline or at the end of the string. -/
def cleanB : List Char → Bool
  | [] => true
  | [c] => !(c == ' ' || c == '\t')
  | c :: d :: r => !((c == ' ' || c == '\t') && d == '\n') && cleanB (d :: r)

end AiCleaner


section Claims

open AiCleaner TextCleaner StyleAnalyzer Humanizer

/-- C7, counterexample: a persisted profile whose contents do not parse
makes `load_profile` propagate the exception (`json.load`'s
`JSONDecodeError` is not caught), contradicting the claim that a malformed
file never propagates an exception. -/
theorem c7_counterexample :
    load_profile defaultProfile ProfileFile.invalid = Except.error () := rfl

/-- C7 (amended): `load_profile` on a missing file leaves the in-memory
profile exactly at its current value and does not raise; a file that
parses replaces the profile; but a malformed file raises — only
`FileNotFoundError` is caught. -/
theorem c7_missing_file_keeps_profile (cur : StyleProfile) :
    load_profile cur ProfileFile.missing = Except.ok cur ∧
    load_profile cur ProfileFile.invalid = Except.error () ∧
    (∀ q, load_profile cur (ProfileFile.parsed q) = Except.ok q) :=
  ⟨rfl, rfl, fun _ => rfl⟩

/-- C9: empty or whitespace-only input is an identity passthrough at all
three public entry points: `clean_text` returns the input unchanged,
`analyze_writing_sample` returns the profile unchanged, and
`humanize_text` returns the input unchanged. -/
theorem c9_identity_passthrough (t : List Char) (h : pyStrip t = []) :
    clean_text t = t ∧
    (∀ p : StyleProfile, analyze_writing_sample p t = p) ∧
    (∀ (p : HProfile) (rng : Rng), humanize_text p rng t = t) := by
  refine ⟨?_, fun p => ?_, fun p rng => ?_⟩
  · simp [clean_text, h]
  · simp [analyze_writing_sample, h]
  · simp [humanize_text, h]

/-- Witness for C9 at the whitespace-only input of two spaces, a newline
and a space. -/
theorem c9_witness :
    pyStrip "  \n ".data = [] ∧
    clean_text "  \n ".data = "  \n ".data ∧
    analyze_writing_sample defaultProfile "  \n ".data = defaultProfile ∧
    humanize_text ⟨none, none, none, none, none, none⟩ ⟨0, 0, true⟩
      "  \n ".data = "  \n ".data := by
  have h : pyStrip "  \n ".data = [] := by decide
  have H := c9_identity_passthrough "  \n ".data h
  exact ⟨h, H.1, H.2.1 _, H.2.2 _ _⟩

set_option maxRecDepth 400000 in
set_option maxHeartbeats 4000000 in
/-- C2: on the literal input `"As an AI language model, I'd be happy to
help."`, blank line, `"Renewable energy is great."`, the output of
`clean_text` has no case-insensitive occurrence of `"as an ai"` and
retains `"Renewable energy is great."` verbatim. -/
theorem c2_disclaimer_literal :
    subIn "as an ai".data
      (pyLower (clean_text (withApos
        "As an AI language model, I@d be happy to help.\n\nRenewable energy is great."))) = false ∧
    subIn "Renewable energy is great.".data
      (clean_text (withApos
        "As an AI language model, I@d be happy to help.\n\nRenewable energy is great.")) = true := by
  decide

set_option maxRecDepth 400000 in
set_option maxHeartbeats 4000000 in
/-- C1: evaluation at the failing input.  The multi-line fenced code block
around the line `I cannot do this` is not shielded whole (the shield
patterns are compiled without `re.DOTALL`, so the code-block pattern
cannot cross the newlines; only the backtick pairs are shielded by the
inline-code pattern), the `^I cannot` disclaimer rule then deletes the
block's content line, and the output is the two bare fences — the exact
code-block text does not appear unchanged in the output. -/
theorem c1_code_block_deleted :
    subIn "I cannot do this".data "```\nI cannot do this\n```".data = true ∧
    clean_text "```\nI cannot do this\n```".data = "```\n\n```".data ∧
    subIn "I cannot do this".data
      (clean_text "```\nI cannot do this\n```".data) = false := by
  decide

set_option maxRecDepth 400000 in
set_option maxHeartbeats 4000000 in
/-- C3, counterexample: on `"*x **b** y*"` no disclaimer pattern matches
(every `sub` is the identity on it), yet `clean_text` emits the synthetic
placeholder `__FORMAT_0__` into its output: the bold span is shielded
first, the italic pattern then shields a span that contains the bold
placeholder, and restoration in insertion order never reaches the inner
placeholder. -/
theorem c3_counterexample :
    (∀ r ∈ watermark_patterns,
      subAll (fuelFor "*x **b** y*".data) r [] none "*x **b** y*".data =
        "*x **b** y*".data) ∧
    clean_text "*x **b** y*".data = "*x __FORMAT_0__ y*".data ∧
    subIn "__FORMAT_0__".data (clean_text "*x **b** y*".data) = true ∧
    subIn "__FORMAT_0__".data "*x **b** y*".data = false := by
  decide

set_option maxRecDepth 400000 in
set_option maxHeartbeats 4000000 in
/-- C4, counterexample: `clean_text` is not idempotent.  On
`"(As an AI y)As an AI is cool"` the first pass removes only the
parenthetical (leaving `"As an AI is cool"`, now at the start of a line);
the second pass removes everything. -/
theorem c4_counterexample :
    clean_text (withApos "(As an AI y)As an AI is cool") =
      "As an AI is cool".data ∧
    clean_text (clean_text (withApos "(As an AI y)As an AI is cool")) = [] ∧
    clean_text (clean_text (withApos "(As an AI y)As an AI is cool")) ≠
      clean_text (withApos "(As an AI y)As an AI is cool") := by
  decide

set_option maxRecDepth 400000 in
set_option maxHeartbeats 4000000 in
/-- C5, counterexample: with `avg_sentence_length` present but zero, the
target is 0 (not the claimed default 15): the six-word sentence
`"a b and c d e f"` is below the claimed threshold `15 * 1.5` yet is
split at its conjunction instead of passing through intact. -/
theorem c5_counterexample :
    ((6 : ℚ) ≤ 15 * 1.5) ∧
    adjust_sentence_length ⟨some 0, none, none, none, none, none⟩
      "a b and c d e f".data = "a b. and c d e f.".data ∧
    adjust_sentence_length ⟨some 0, none, none, none, none, none⟩
      "a b and c d e f".data ≠ "a b and c d e f.".data := by
  with_unfolding_all decide

set_option maxRecDepth 400000 in
set_option maxHeartbeats 4000000 in
/-- C6, counterexample: `passive_voice_usage` and `contractions_usage` are
not confined to `[0, 1]`: one sentence with three `" was "` cues yields a
passive ratio of 3, and one whitespace token holding two contractions
yields a contraction ratio of 2. -/
theorem c6_counterexample :
    (analyze_writing_sample defaultProfile
      "It was here was there was x.".data).passive_voice_usage = 3 ∧
    (analyze_writing_sample defaultProfile
      (withApos "a@b,c@d")).contractions_usage = 2 ∧
    ¬ ((3 : ℚ) ≤ 1) := by
  with_unfolding_all decide

set_option maxRecDepth 400000 in
set_option maxHeartbeats 4000000 in
/-- C8, counterexample: on the sample `"..."` (non-empty, but with no
tokens and no sentences) the tone pass leaves both ratio fields at their
stale prior values instead of setting them to 0. -/
theorem c8_counterexample :
    (analyze_writing_sample
      ⟨[], [], [], [], [], [], [], [], 1/2, 1/3, 0, 0, []⟩
      "...".data).contractions_usage = 1/2 ∧
    (analyze_writing_sample
      ⟨[], [], [], [], [], [], [], [], 1/2, 1/3, 0, 0, []⟩
      "...".data).passive_voice_usage = 1/3 ∧
    ((1 : ℚ)/2 ≠ 0) := by
  with_unfolding_all decide

set_option maxRecDepth 400000 in
set_option maxHeartbeats 4000000 in
/-- C10, counterexample: for a profile with a recorded personal
expression, stage 2 rejoins the stage-1 output on `". "` and the result
ends with a space, not a period, even though stage 1 produced a non-empty
fragment list.  (The join happens whether or not the random insertion
fires; here the random draw 1 ≥ 0.3 skips the insertion.) -/
theorem c10_counterexample :
    humanize_text ⟨some 100, some 0, some ["p".data], some 5, none, some (1/2)⟩
      ⟨1, 0, true⟩ "Hi there. Bye.".data = "Hi there.  Bye. ".data ∧
    stage1Fragments ⟨some 100, some 0, some ["p".data], some 5, none, some (1/2)⟩
      "Hi there. Bye.".data ≠ [] ∧
    (humanize_text ⟨some 100, some 0, some ["p".data], some 5, none, some (1/2)⟩
      ⟨1, 0, true⟩ "Hi there. Bye.".data).getLast? ≠ some '.' := by
  with_unfolding_all decide

/-- Shielding with an empty span list changes nothing. -/
theorem shieldSpans_nil (T : List Char) (st : List Char × List (Nat × List Char) × Nat) :
    shieldSpans T [] st = st := rfl

/-- If every shield pattern finds no span in `t`, the whole shield fold
leaves the state unchanged. -/
theorem foldl_shield_id (L : List RE) (t : List Char)
    (m : List (Nat × List Char)) (c : Nat)
    (h : ∀ r ∈ L, findSpans (fuelFor t) r none t 0 = []) :
    L.foldl (fun st r => shieldSpans st.1 (findSpans (fuelFor st.1) r none st.1 0) st)
      (t, m, c) = (t, m, c) := by
  induction L with
  | nil => rfl
  | cons r L ih =>
      have h1 : findSpans (fuelFor t) r none t 0 = [] := h r (by simp)
      simp only [List.foldl_cons]
      rw [show shieldSpans (t, m, c).1
          (findSpans (fuelFor (t, m, c).1) r none (t, m, c).1 0) (t, m, c) = (t, m, c) by
        simp only [h1]; rfl]
      exact ih (fun r hr => h r (List.mem_cons_of_mem _ hr))

/-- If every disclaimer pattern's `sub` is the identity on `t`, the whole
removal fold is the identity. -/
theorem foldl_sub_id (L : List RE) (t : List Char)
    (h : ∀ r ∈ L, subAll (fuelFor t) r [] none t = t) :
    L.foldl (fun u r => subAll (fuelFor u) r [] none u) t = t := by
  induction L with
  | nil => rfl
  | cons r L ih =>
      simp only [List.foldl_cons, h r (by simp)]
      exact ih (fun r hr => h r (List.mem_cons_of_mem _ hr))

/-- C3 (amended): for an input whose stripped form is non-empty, on which
no formatting-shield pattern finds a span and every disclaimer pattern's
removal is the identity, `clean_text` returns exactly the
whitespace-normalized input — the placeholder map is empty, so no
synthetic token can survive and the shield/unshield round trip is exact. -/
theorem c3_no_op_on_plain_input (t : List Char)
    (hs : pyStrip t ≠ [])
    (hmd : ∀ r ∈ markdown_patterns, findSpans (fuelFor t) r none t 0 = [])
    (hwm : ∀ r ∈ watermark_patterns, subAll (fuelFor t) r [] none t = t) :
    clean_text t = clean_whitespace t := by
  have ht : ¬ (t = [] ∨ pyStrip t = []) := by
    rintro (rfl | h)
    · exact hs rfl
    · exact hs h
  unfold clean_text
  rw [if_neg ht]
  have hpm : preserve_formatting_markers t = (t, []) := by
    unfold preserve_formatting_markers
    rw [foldl_shield_id _ _ _ _ hmd]
  have hws : watermarkSub t = t := foldl_sub_id _ _ hwm
  simp only [hpm, hws]
  rfl

set_option maxRecDepth 400000 in
/-- Witness for C3 at the plain input `"Hello world."`. -/
theorem c3_witness :
    pyStrip "Hello world.".data ≠ [] ∧
    clean_text "Hello world.".data = clean_whitespace "Hello world.".data :=
  ⟨by decide, c3_no_op_on_plain_input "Hello world.".data (by decide)
    (by decide) (by decide)⟩


/-- The sentence-structure pass does not touch the three ratio fields. -/
theorem struct_keeps_ratios (p : StyleProfile) (s : List (List Char)) :
    (analyze_sentence_structure p s).contractions_usage = p.contractions_usage ∧
    (analyze_sentence_structure p s).passive_voice_usage = p.passive_voice_usage ∧
    (analyze_sentence_structure p s).punctuation_patterns = p.punctuation_patterns := by
  simp only [analyze_sentence_structure]
  split <;> simp

/-- The vocabulary pass does not touch the three ratio fields. -/
theorem vocab_keeps_ratios (p : StyleProfile) (s : List (List Char)) :
    (analyze_vocabulary p s).contractions_usage = p.contractions_usage ∧
    (analyze_vocabulary p s).passive_voice_usage = p.passive_voice_usage ∧
    (analyze_vocabulary p s).punctuation_patterns = p.punctuation_patterns := by
  simp only [analyze_vocabulary]
  split <;> simp

/-- The punctuation pass does not touch the two usage fields. -/
theorem punct_keeps_usage (p : StyleProfile) (t : List Char) :
    (analyze_punctuation p t).contractions_usage = p.contractions_usage ∧
    (analyze_punctuation p t).passive_voice_usage = p.passive_voice_usage := by
  simp only [analyze_punctuation]
  split <;> simp

/-- The paragraph pass does not touch the three ratio fields. -/
theorem para_keeps_ratios (p : StyleProfile) (qs : List (List Char)) :
    (analyze_paragraph_structure p qs).contractions_usage = p.contractions_usage ∧
    (analyze_paragraph_structure p qs).passive_voice_usage = p.passive_voice_usage ∧
    (analyze_paragraph_structure p qs).punctuation_patterns = p.punctuation_patterns := by
  simp [analyze_paragraph_structure]

/-- The tone pass does not touch the punctuation ratios. -/
theorem tone_keeps_punct (p : StyleProfile) (s : List (List Char)) :
    (analyze_tone_and_style p s).punctuation_patterns = p.punctuation_patterns := by
  simp only [analyze_tone_and_style]
  split <;> split <;> simp

/-- How the tone pass writes `contractions_usage`: it overwrites with the
sample ratio when the joined text has tokens and keeps the prior value
otherwise. -/
theorem tone_contr (p : StyleProfile) (s : List (List Char)) :
    (0 < (pySplitWs (pyLower (pyJoin " ".data s))).length →
      (analyze_tone_and_style p s).contractions_usage =
        ((reFindAll contractionPat (pyLower (pyJoin " ".data s))).length : ℚ) /
          (pySplitWs (pyLower (pyJoin " ".data s))).length) ∧
    ((pySplitWs (pyLower (pyJoin " ".data s))).length = 0 →
      (analyze_tone_and_style p s).contractions_usage = p.contractions_usage) := by
  simp only [analyze_tone_and_style]
  constructor
  · intro h
    rw [if_pos h]
    all_goals first
      | (split <;> simp)
      | simp
  · intro h
    rw [if_neg (show ¬ ((pySplitWs (pyLower (pyJoin " ".data s))).length > 0) by
      simp [h])]
    all_goals first
      | (split <;> simp)
      | simp

/-- How the tone pass writes `passive_voice_usage`: it overwrites with the
sample ratio when there is at least one sentence and keeps the prior value
otherwise. -/
theorem tone_passive (p : StyleProfile) (s : List (List Char)) :
    (0 < s.length →
      (analyze_tone_and_style p s).passive_voice_usage =
        ((passiveIndicators.map (fun ind =>
          pyCountSub (' ' :: ind ++ [' ']) (pyLower (pyJoin " ".data s)))).sum : ℚ) /
          s.length) ∧
    (s.length = 0 →
      (analyze_tone_and_style p s).passive_voice_usage = p.passive_voice_usage) := by
  simp only [analyze_tone_and_style]
  constructor
  · intro h
    rw [if_pos h]
    all_goals first
      | (split <;> simp)
      | simp
  · intro h
    rw [if_neg (show ¬ (s.length > 0) by simp [h])]
    all_goals first
      | (split <;> simp)
      | simp

/-- C8 (amended): in the tone pass of `analyze_writing_sample`, for every
non-empty sample, `contractions_usage` is overwritten with the contraction
count divided by the sample's whitespace-split token count when that count
is positive, and retains its prior value when the sample has no tokens;
`passive_voice_usage` is overwritten with the passive-cue count divided by
the sentence count when there is at least one sentence, and retains its
prior value when there is none. -/
theorem c8_tone_overwrite (p : StyleProfile) (t : List Char)
    (hs : pyStrip t ≠ []) :
    (0 < sampleTokenCount t →
      (analyze_writing_sample p t).contractions_usage =
        (sampleContractions t : ℚ) / sampleTokenCount t) ∧
    (sampleTokenCount t = 0 →
      (analyze_writing_sample p t).contractions_usage = p.contractions_usage) ∧
    (0 < (sampleSentences t).length →
      (analyze_writing_sample p t).passive_voice_usage =
        (samplePassiveCues t : ℚ) / (sampleSentences t).length) ∧
    ((sampleSentences t).length = 0 →
      (analyze_writing_sample p t).passive_voice_usage = p.passive_voice_usage) := by
  have hguard : analyze_writing_sample p t =
      analyze_paragraph_structure
        (analyze_punctuation
          (analyze_tone_and_style
            (analyze_vocabulary (analyze_sentence_structure p (sampleSentences t))
              (sampleSentences t))
            (sampleSentences t))
          t)
        (extract_paragraphs (clean_sample t)) := by
    unfold analyze_writing_sample
    rw [if_neg hs]
    rfl
  set q := analyze_vocabulary (analyze_sentence_structure p (sampleSentences t))
    (sampleSentences t) with hq
  have hqc : q.contractions_usage = p.contractions_usage := by
    rw [hq, (vocab_keeps_ratios _ _).1, (struct_keeps_ratios _ _).1]
  have hqp : q.passive_voice_usage = p.passive_voice_usage := by
    rw [hq, (vocab_keeps_ratios _ _).2.1, (struct_keeps_ratios _ _).2.1]
  have hc : (analyze_writing_sample p t).contractions_usage =
      (analyze_tone_and_style q (sampleSentences t)).contractions_usage := by
    rw [hguard, (para_keeps_ratios _ _).1, (punct_keeps_usage _ _).1]
  have hp : (analyze_writing_sample p t).passive_voice_usage =
      (analyze_tone_and_style q (sampleSentences t)).passive_voice_usage := by
    rw [hguard, (para_keeps_ratios _ _).2.1, (punct_keeps_usage _ _).2]
  refine ⟨fun h => ?_, fun h => ?_, fun h => ?_, fun h => ?_⟩
  · rw [hc, (tone_contr q (sampleSentences t)).1 h]; rfl
  · rw [hc, (tone_contr q (sampleSentences t)).2 h, hqc]
  · rw [hp, (tone_passive q (sampleSentences t)).1 h]; rfl
  · rw [hp, (tone_passive q (sampleSentences t)).2 h, hqp]

set_option maxRecDepth 400000 in
/-- Witness for C8 at the tokenless sample `"..."` and a profile with a
prior contraction ratio of one half. -/
theorem c8_witness :
    pyStrip "...".data ≠ [] ∧ sampleTokenCount "...".data = 0 ∧
    (analyze_writing_sample ⟨[], [], [], [], [], [], [], [], 1/2, 1/3, 0, 0, []⟩
      "...".data).contractions_usage = 1/2 := by
  refine ⟨by decide, by decide, ?_⟩
  rw [(c8_tone_overwrite ⟨[], [], [], [], [], [], [], [], 1/2, 1/3, 0, 0, []⟩
    "...".data (by decide)).2.1 (by decide)]


/-- Membership after a dict write: the new pair or an old entry. -/
theorem mem_dictSet {K V : Type} [DecidableEq K] (d : List (K × V)) (k : K)
    (v : V) : ∀ kv ∈ dictSet d k v, kv = (k, v) ∨ kv ∈ d := by
  induction d with
  | nil =>
      intro kv hkv
      simp only [dictSet, List.mem_singleton] at hkv
      exact Or.inl hkv
  | cons kv0 d ih =>
      intro kv hkv
      simp only [dictSet] at hkv
      split at hkv
      · rcases List.mem_cons.1 hkv with h | h
        · left
          rw [h]
        · right
          exact List.mem_cons_of_mem _ h
      · rcases List.mem_cons.1 hkv with h | h
        · right
          rw [h]
          exact List.mem_cons_self _ _
        · rcases ih kv h with h1 | h1
          · exact Or.inl h1
          · exact Or.inr (List.mem_cons_of_mem _ h1)

/-- A dict read is bounded by any bound on the stored values. -/
theorem dictGet_le {K : Type} [DecidableEq K] (d : List (K × Nat)) (k : K)
    (M : Nat) (h : ∀ kv ∈ d, kv.2 ≤ M) : dictGet 0 d k ≤ M := by
  induction d with
  | nil => exact Nat.zero_le M
  | cons kv0 d ih =>
      simp only [dictGet]
      split
      · exact h kv0 (List.mem_cons_self _ _)
      · exact ih (fun kv hkv => h kv (List.mem_cons_of_mem _ hkv))

/-- Every count accumulated by the punctuation counter over `l` is bounded
by the number of processed characters. -/
theorem punct_counts_bound (l : List Char) (d0 : List (Char × Nat)) (n : Nat)
    (h : ∀ kv ∈ d0, kv.2 ≤ n) :
    ∀ kv ∈ l.foldl
      (fun d c => if punctChars.contains c then dictAdd d c 1 else d) d0,
      kv.2 ≤ n + l.length := by
  induction l generalizing d0 n with
  | nil =>
      intro kv hkv
      simpa using h kv hkv
  | cons c l ih =>
      intro kv hkv
      simp only [List.foldl_cons] at hkv
      have step : ∀ kv ∈ (if punctChars.contains c then dictAdd d0 c 1 else d0),
          kv.2 ≤ n + 1 := by
        intro kv hkv
        split at hkv
        · rcases mem_dictSet _ _ _ kv hkv with h1 | h1
          · rw [h1]
            exact Nat.add_le_add_right (dictGet_le d0 c n h) 1
          · exact Nat.le_succ_of_le (h kv h1)
        · exact Nat.le_succ_of_le (h kv hkv)
      have := ih _ _ step kv hkv
      simpa [Nat.add_assoc, Nat.add_comm 1 l.length] using this

/-- Writing ratios `count / T` with `count ≤ T` into a dict of values in
`[0, 1]` keeps every value in `[0, 1]`. -/
theorem punct_ratios_bound (items : List (Char × Nat)) (d0 : List (Char × ℚ))
    (T : Nat) (hT : 0 < T) (hd : ∀ kv ∈ d0, 0 ≤ kv.2 ∧ kv.2 ≤ 1)
    (hi : ∀ kv ∈ items, kv.2 ≤ T) :
    ∀ kv ∈ items.foldl (fun d kv => dictSet d kv.1 ((kv.2 : ℚ) / T)) d0,
      0 ≤ kv.2 ∧ kv.2 ≤ 1 := by
  induction items generalizing d0 with
  | nil => exact hd
  | cons it items ih =>
      intro kv hkv
      simp only [List.foldl_cons] at hkv
      refine ih _ ?_ (fun kv h => hi kv (List.mem_cons_of_mem _ h)) kv hkv
      intro kv hkv
      rcases mem_dictSet _ _ _ kv hkv with h1 | h1
      · rw [h1]
        constructor
        · positivity
        · rw [div_le_one (by exact_mod_cast hT)]
          exact_mod_cast hi it (List.mem_cons_self _ _)
      · exact hd kv h1

/-- `RatiosOK` only inspects three fields. -/
theorem ratios_of_eq (p q : StyleProfile)
    (h1 : q.punctuation_patterns = p.punctuation_patterns)
    (h2 : q.contractions_usage = p.contractions_usage)
    (h3 : q.passive_voice_usage = p.passive_voice_usage)
    (h : RatiosOK p) : RatiosOK q := by
  unfold RatiosOK at *
  rw [h1, h2, h3]
  exact h

/-- The tone pass preserves `RatiosOK` (its two overwrites are ratios of
counts, hence nonnegative). -/
theorem ratios_tone (p : StyleProfile) (s : List (List Char))
    (h : RatiosOK p) : RatiosOK (analyze_tone_and_style p s) := by
  obtain ⟨hpp, hcu, hpv⟩ := h
  refine ⟨?_, ?_, ?_⟩
  · rw [tone_keeps_punct]
    exact hpp
  · rcases Nat.eq_zero_or_pos (pySplitWs (pyLower (pyJoin " ".data s))).length
      with h0 | h0
    · rw [(tone_contr p s).2 h0]
      exact hcu
    · rw [(tone_contr p s).1 h0]
      positivity
  · rcases Nat.eq_zero_or_pos s.length with h0 | h0
    · rw [(tone_passive p s).2 h0]
      exact hpv
    · rw [(tone_passive p s).1 h0]
      positivity

/-- The punctuation pass preserves `RatiosOK`: each freshly written ratio
is a character count divided by the positive total character count. -/
theorem ratios_punct (p : StyleProfile) (t : List Char)
    (h : RatiosOK p) : RatiosOK (analyze_punctuation p t) := by
  obtain ⟨hpp, hcu, hpv⟩ := h
  refine ⟨?_, ?_, ?_⟩
  · simp only [analyze_punctuation]
    split
    · intro kv hkv
      simp only at hkv
      refine punct_ratios_bound _ _ t.length (by omega) hpp ?_ kv hkv
      intro kv hkv
      have := punct_counts_bound t [] 0 (by simp) kv hkv
      simpa using this
    · exact hpp
  · rw [(punct_keeps_usage p t).1]
    exact hcu
  · rw [(punct_keeps_usage p t).2]
    exact hpv

/-- C6 (amended): `analyze_writing_sample` preserves the real ratio
invariant — every `punctuation_patterns` value stays in `[0, 1]`, and
`contractions_usage` and `passive_voice_usage` stay nonnegative (they are
not bounded by 1, see the counterexample). -/
theorem c6_ratio_invariant (p : StyleProfile) (t : List Char)
    (h : RatiosOK p) : RatiosOK (analyze_writing_sample p t) := by
  unfold analyze_writing_sample
  split
  · exact h
  · refine ratios_of_eq _ _ (para_keeps_ratios _ _).2.2 (para_keeps_ratios _ _).1
      (para_keeps_ratios _ _).2.1 ?_
    refine ratios_punct _ _ ?_
    refine ratios_tone _ _ ?_
    refine ratios_of_eq _ _ (vocab_keeps_ratios _ _).2.2 (vocab_keeps_ratios _ _).1
      (vocab_keeps_ratios _ _).2.1 ?_
    exact ratios_of_eq _ _ (struct_keeps_ratios _ _).2.2 (struct_keeps_ratios _ _).1
      (struct_keeps_ratios _ _).2.1 h

set_option maxRecDepth 400000 in
/-- Witness for C6 at the default profile and the sample
`"It was here."`. -/
theorem c6_witness :
    RatiosOK (analyze_writing_sample defaultProfile "It was here.".data) := by
  apply c6_ratio_invariant
  unfold RatiosOK
  refine ⟨fun kv hkv => ?_, ?_, ?_⟩
  · simp [defaultProfile] at hkv
  · simp [defaultProfile]
  · simp [defaultProfile]


/-- `pyLowerChar` either fixes its argument or returns a letter. -/
theorem pyLowerChar_self_or_alpha (c : Char) :
    pyLowerChar c = c ∨ (pyLowerChar c).isAlpha = true := by
  unfold pyLowerChar
  split
  all_goals first
    | (right; decide)
    | (left; rfl)

/-- A letter stays a letter under `pyLowerChar`. -/
theorem pyLowerChar_alpha (c : Char) (h : c.isAlpha = true) :
    (pyLowerChar c).isAlpha = true := by
  unfold pyLowerChar
  split
  all_goals first
    | decide
    | exact h

/-- Only `x` itself can lowercase to a non-letter `x`. -/
theorem pyLowerChar_eq_nonalpha (c x : Char) (hx : x.isAlpha = false)
    (h : pyLowerChar c = x) : c = x := by
  rcases pyLowerChar_self_or_alpha c with h1 | h1
  · rw [← h1, h]
  · rw [h, hx] at h1
    cases h1

/-- Characters of the stripped string come from the string. -/
theorem mem_pyStrip (c : Char) (l : List Char) (h : c ∈ pyStrip l) :
    c ∈ l := by
  unfold pyStrip at h
  rw [List.mem_reverse] at h
  have h2 := (List.dropWhile_sublist _).subset h
  rw [List.mem_reverse] at h2
  exact (List.dropWhile_sublist _).subset h2

/-- Every piece of the sentence split consists of characters of the input,
none of which is a sentence terminator. -/
theorem mem_splitSentRuns (t : List Char) :
    ∀ seg ∈ splitSentRuns t, ∀ c ∈ seg, c ∈ t ∧ isSentEnd c = false := by
  induction t with
  | nil =>
      intro seg hseg c hc
      simp only [splitSentRuns, List.mem_singleton] at hseg
      subst hseg
      simp at hc
  | cons a s ih =>
      intro seg hseg c hc
      simp only [splitSentRuns] at hseg
      split at hseg
      · split at hseg
        · split at hseg
          · have := ih seg hseg c hc
            exact ⟨List.mem_cons_of_mem _ this.1, this.2⟩
          · rcases List.mem_cons.1 hseg with h | h
            · subst h
              simp at hc
            · have := ih seg h c hc
              exact ⟨List.mem_cons_of_mem _ this.1, this.2⟩
        · rcases List.mem_cons.1 hseg with h | h
          · subst h
            simp at hc
          · have := ih seg h c hc
            exact ⟨List.mem_cons_of_mem _ this.1, this.2⟩
      · rename_i ha
        split at hseg
        · rename_i heq
          rcases List.mem_singleton.1 hseg with h
          subst h
          rcases List.mem_singleton.1 hc with h
          subst h
          exact ⟨List.mem_cons_self _ _, by simpa using ha⟩
        · rename_i piece rest heq
          rcases List.mem_cons.1 hseg with h | h
          · subst h
            rcases List.mem_cons.1 hc with h | h
            · subst h
              exact ⟨List.mem_cons_self _ _, by simpa using ha⟩
            · have hp : piece ∈ splitSentRuns s := by
                rw [heq]
                exact List.mem_cons_self _ _
              have := ih piece hp c h
              exact ⟨List.mem_cons_of_mem _ this.1, this.2⟩
          · have hp : seg ∈ splitSentRuns s := by
              rw [heq]
              exact List.mem_cons_of_mem _ h
            have := ih seg hp c hc
            exact ⟨List.mem_cons_of_mem _ this.1, this.2⟩

/-- Whitespace-split words consist of characters of the input. -/
theorem mem_pySplitWs (l : List Char) :
    ∀ w ∈ pySplitWs l, ∀ c ∈ w, c ∈ l := by
  induction l with
  | nil =>
      intro w hw
      simp [pySplitWs] at hw
  | cons a s ih =>
      intro w hw c hc
      simp only [pySplitWs] at hw
      split at hw
      · exact List.mem_cons_of_mem _ (ih w hw c hc)
      · split at hw
        · rcases List.mem_singleton.1 hw with h
          subst h
          rcases List.mem_singleton.1 hc with h
          subst h
          exact List.mem_cons_self _ _
        · split at hw
          · rcases List.mem_cons.1 hw with h | h
            · subst h
              rcases List.mem_singleton.1 hc with h
              subst h
              exact List.mem_cons_self _ _
            · exact List.mem_cons_of_mem _ (ih w h c hc)
          · rename_i heq
            split at hw
            · rcases List.mem_singleton.1 hw with h
              subst h
              rcases List.mem_singleton.1 hc with h
              subst h
              exact List.mem_cons_self _ _
            · rename_i piece rest heq2
              rcases List.mem_cons.1 hw with h | h
              · subst h
                rcases List.mem_cons.1 hc with h | h
                · subst h
                  exact List.mem_cons_self _ _
                · have hp : piece ∈ pySplitWs s := by
                    rw [heq2]
                    exact List.mem_cons_self _ _
                  exact List.mem_cons_of_mem _ (ih piece hp c h)
              · have hp : w ∈ pySplitWs s := by
                  rw [heq2]
                  exact List.mem_cons_of_mem _ h
                exact List.mem_cons_of_mem _ (ih w hp c hc)

/-- Characters of a join come from the separator or from a piece. -/
theorem mem_pyJoin (sep : List Char) (ls : List (List Char)) :
    ∀ c ∈ pyJoin sep ls, c ∈ sep ∨ ∃ l ∈ ls, c ∈ l := by
  induction ls with
  | nil =>
      intro c hc
      simp [pyJoin] at hc
  | cons x xs ih =>
      intro c hc
      cases xs with
      | nil =>
          exact Or.inr ⟨x, List.mem_cons_self _ _, hc⟩
      | cons y ys =>
          rcases List.mem_append.1 hc with hc | hc
          · rcases List.mem_append.1 hc with hc | hc
            · exact Or.inr ⟨x, List.mem_cons_self _ _, hc⟩
            · exact Or.inl hc
          · rcases ih c hc with h | ⟨l, hl, hcl⟩
            · exact Or.inl h
            · exact Or.inr ⟨l, List.mem_cons_of_mem _ hl, hcl⟩

/-- Characters of the pieces of a one-character split come from the
input. -/
theorem mem_pySplitChar (sep : Char) (l : List Char) :
    ∀ w ∈ pySplitChar sep l, ∀ c ∈ w, c ∈ l := by
  induction l with
  | nil =>
      intro w hw c hc
      simp only [pySplitChar, List.mem_singleton] at hw
      subst hw
      simp at hc
  | cons a s ih =>
      intro w hw c hc
      simp only [pySplitChar] at hw
      split at hw
      · rcases List.mem_cons.1 hw with h | h
        · subst h
          simp at hc
        · exact List.mem_cons_of_mem _ (ih w h c hc)
      · split at hw
        · rcases List.mem_singleton.1 hw with h
          subst h
          rcases List.mem_singleton.1 hc with h
          subst h
          exact List.mem_cons_self _ _
        · rename_i piece rest heq
          rcases List.mem_cons.1 hw with h | h
          · subst h
            rcases List.mem_cons.1 hc with h | h
            · subst h
              exact List.mem_cons_self _ _
            · have hp : piece ∈ pySplitChar sep s := by
                rw [heq]
                exact List.mem_cons_self _ _
              exact List.mem_cons_of_mem _ (ih piece hp c h)
          · have hp : w ∈ pySplitChar sep s := by
              rw [heq]
              exact List.mem_cons_of_mem _ h
            exact List.mem_cons_of_mem _ (ih w hp c hc)

/-- Each fragment a sentence contributes consists of spaces and characters
of the sentence. -/
theorem mem_processSentence (target : ℚ) (s : List Char) :
    ∀ f ∈ processSentence target s, ∀ c ∈ f, c = ' ' ∨ c ∈ s := by
  intro f hf c hc
  have fromStrip : c ∈ pyStrip s → c = ' ' ∨ c ∈ s :=
    fun h => Or.inr (mem_pyStrip c s h)
  have fromJoin : ∀ ws : List (List Char),
      (∀ w ∈ ws, w ∈ pySplitWs (pyStrip s)) →
      c ∈ pyStrip (pyJoin " ".data ws) → c = ' ' ∨ c ∈ s := by
    intro ws hws h
    have h1 := mem_pyStrip c _ h
    rcases mem_pyJoin _ _ c h1 with h2 | ⟨w, hw, hcw⟩
    · left
      simpa using h2
    · right
      exact mem_pyStrip c s (mem_pySplitWs _ w (hws w hw) c hcw)
  simp only [processSentence] at hf
  split at hf
  · split at hf
    · rcases List.mem_singleton.1 hf with h
      subst h
      exact fromStrip hc
    · rcases List.mem_cons.1 hf with h | h
      · subst h
        exact fromJoin _ (fun w hw => List.mem_of_mem_take hw) hc
      · rcases List.mem_singleton.1 h with h
        subst h
        exact fromJoin _ (fun w hw => List.mem_of_mem_drop hw) hc
  · rcases List.mem_singleton.1 hf with h
    subst h
    exact fromStrip hc

/-- Every character of stage 1's output is a period, a space, or a
non-terminator character of the input. -/
theorem stage1_chars (p : HProfile) (t : List Char) :
    ∀ c ∈ adjust_sentence_length p t,
      c = '.' ∨ c = ' ' ∨ (c ∈ t ∧ isSentEnd c = false) := by
  intro c hc
  unfold adjust_sentence_length at hc
  rcases List.mem_append.1 hc with hc | hc
  · rcases mem_pyJoin _ _ c hc with hsep | ⟨f, hf, hcf⟩
    · rcases List.mem_cons.1 hsep with h | h
      · exact Or.inl h
      · rcases List.mem_singleton.1 h with h
        exact Or.inr (Or.inl h)
    · unfold stage1Fragments at hf
      rcases List.mem_flatMap.1 hf with ⟨s, hs, hfs⟩
      have hs2 := (List.mem_filter.1 hs).1
      rcases mem_processSentence _ s f hfs c hcf with h | h
      · exact Or.inr (Or.inl h)
      · exact Or.inr (Or.inr (mem_splitSentRuns t s hs2 c h))
  · split at hc
    · rcases List.mem_singleton.1 hc with h
      exact Or.inl h
    · simp at hc


/-- Characters of the lowercased string are lowercasings of input
characters. -/
theorem mem_pyLower (c : Char) (l : List Char) (h : c ∈ pyLower l) :
    ∃ d ∈ l, pyLowerChar d = c := by
  unfold pyLower at h
  rcases List.mem_map.1 h with ⟨d, hd, hdc⟩
  exact ⟨d, hd, hdc⟩

/-- A case-insensitive prefix is no longer than the text. -/
theorem ciPrefix_length (ph : List Char) :
    ∀ u, ciPrefix ph u = true → ph.length ≤ u.length := by
  induction ph with
  | nil =>
      intro u _
      exact Nat.zero_le _
  | cons a as ih =>
      intro u h
      cases u with
      | nil => simp [ciPrefix] at h
      | cons b bs =>
          simp only [ciPrefix, Bool.and_eq_true] at h
          exact Nat.succ_le_succ (ih bs h.2)

/-- A case-insensitive prefix matches the text up to lowercasing. -/
theorem ciPrefix_map (ph : List Char) :
    ∀ u, ciPrefix ph u = true →
      (u.take ph.length).map pyLowerChar = ph.map pyLowerChar := by
  induction ph with
  | nil =>
      intro u _
      rfl
  | cons a as ih =>
      intro u h
      cases u with
      | nil => simp [ciPrefix] at h
      | cons b bs =>
          simp only [ciPrefix, Bool.and_eq_true] at h
          have hab : pyLowerChar a = pyLowerChar b := (eq_of_beq h.1).symm ▸ rfl
          simp only [List.take, List.map]
          rw [ih bs h.2, ← hab]

/-- `replacePhraseCIF` on the empty list is empty for any fuel. -/
theorem replacePhraseCIF_nil (ph rp : List Char) (fuel : Nat)
    (prev : Option Char) : replacePhraseCIF ph rp fuel prev [] = [] := by
  cases fuel <;> rfl

/-- Characters of a phrase replacement come from the text or from the
replacement string. -/
theorem mem_replacePhraseCIF (ph rp : List Char) :
    ∀ fuel prev s, ∀ c ∈ replacePhraseCIF ph rp fuel prev s,
      c ∈ s ∨ c ∈ rp := by
  intro fuel
  induction fuel with
  | zero =>
      intro prev s c hc
      exact Or.inl hc
  | succ fuel ih =>
      intro prev s c hc
      cases s with
      | nil => simp [replacePhraseCIF] at hc
      | cons c0 s' =>
          simp only [replacePhraseCIF] at hc
          split at hc
          · rcases List.mem_append.1 hc with h | h
            · exact Or.inr h
            · rcases ih _ _ c h with h1 | h1
              · exact Or.inl (List.mem_cons_of_mem _ (List.mem_of_mem_drop h1))
              · exact Or.inr h1
          · rcases List.mem_cons.1 hc with h | h
            · exact Or.inl (h ▸ List.mem_cons_self _ _)
            · rcases ih _ _ c h with h1 | h1
              · exact Or.inl (List.mem_cons_of_mem _ h1)
              · exact Or.inr h1

/-- A non-empty `drop` has the same last element as the whole list. -/
theorem getLast?_drop_of_ne_nil {α : Type} (l : List α) (n : Nat)
    (h : l.drop n ≠ []) : (l.drop n).getLast? = l.getLast? := by
  rcases hgl : (l.drop n).getLast? with _ | y
  · exact absurd (List.getLast?_eq_none_iff.1 hgl) h
  · conv_rhs => rw [← List.take_append_drop n l]
    rw [List.getLast?_append, hgl]
    rfl

/-- A phrase whose last character is a letter can never consume a final
period, so phrase replacement preserves a trailing period. -/
theorem replacePhraseCIF_last_dot (ph rp : List Char) (x : Char)
    (hph : ph.getLast? = some x) (hx : x.isAlpha = true) :
    ∀ fuel prev s, s.getLast? = some '.' →
      (replacePhraseCIF ph rp fuel prev s).getLast? = some '.' := by
  intro fuel
  induction fuel with
  | zero =>
      intro prev s h
      exact h
  | succ fuel ih =>
      intro prev s h
      cases s with
      | nil => simp at h
      | cons c0 s' =>
          simp only [replacePhraseCIF]
          split
          · rename_i hm
            simp only [phraseAt, Bool.and_eq_true, decide_eq_true_eq] at hm
            obtain ⟨⟨⟨hne, hci⟩, _⟩, _⟩ := hm
            have hrest : s'.drop (ph.length - 1) = (c0 :: s').drop ph.length := by
              cases ph with
              | nil => exact absurd rfl hne
              | cons a as => rfl
            by_cases hr : s'.drop (ph.length - 1) = []
            · exfalso
              have hlen : (c0 :: s').length ≤ ph.length := by
                rw [hrest] at hr
                exact List.drop_eq_nil_iff.1 hr
              have htake : (c0 :: s').take ph.length = c0 :: s' :=
                List.take_of_length_le hlen
              have hmap := ciPrefix_map ph (c0 :: s') hci
              rw [htake] at hmap
              have hlast := congrArg List.getLast? hmap
              rw [List.getLast?_map, List.getLast?_map, h, hph] at hlast
              have hdot : pyLowerChar '.' = pyLowerChar x :=
                Option.some_injective _ hlast
              have halpha := pyLowerChar_alpha x hx
              rw [← hdot] at halpha
              exact absurd halpha (by decide)
            · have hrl : (s'.drop (ph.length - 1)).getLast? = some '.' := by
                rw [hrest, getLast?_drop_of_ne_nil _ _ (by rw [← hrest]; exact hr)]
                exact h
              have hrec := ih ((c0 :: s').get? (ph.length - 1)) _ hrl
              rw [List.getLast?_append, hrec]
              rfl
          · cases s' with
            | nil =>
                rw [replacePhraseCIF_nil]
                exact h
            | cons d s'' =>
                have h' : (d :: s'').getLast? = some '.' := by
                  rwa [List.getLast?_cons_cons] at h
                have hrec := ih (some c0) (d :: s'') h'
                have hne : replacePhraseCIF ph rp fuel (some c0) (d :: s'') ≠ [] := by
                  intro e
                  rw [e] at hrec
                  simp at hrec
                rcases List.exists_cons_of_ne_nil hne with ⟨z, zs, hz⟩
                rw [hz]
                rw [hz] at hrec
                rw [List.getLast?_cons_cons]  -- hmm needs two cons
                exact hrec

/-- Characters after the whole contraction / vocabulary fold come from the
original text or one of the replacement strings. -/
theorem mem_foldl_replace (L : List (List Char × List Char)) :
    ∀ t0, ∀ c ∈ L.foldl (fun t fi => replacePhraseCI fi.1 fi.2 t) t0,
      c ∈ t0 ∨ ∃ fi ∈ L, c ∈ fi.2 := by
  induction L with
  | nil =>
      intro t0 c hc
      exact Or.inl hc
  | cons fi L ih =>
      intro t0 c hc
      simp only [List.foldl_cons] at hc
      rcases ih _ c hc with h | ⟨fj, hfj, hcj⟩
      · rcases mem_replacePhraseCIF fi.1 fi.2 _ _ _ c h with h1 | h1
        · exact Or.inl h1
        · exact Or.inr ⟨fi, List.mem_cons_self _ _, h1⟩
      · exact Or.inr ⟨fj, List.mem_cons_of_mem _ hfj, hcj⟩

/-- The contraction / vocabulary fold preserves a trailing period when
every phrase ends in a letter. -/
theorem foldl_replace_last_dot (L : List (List Char × List Char))
    (hL : ∀ fi ∈ L, ∃ x, fi.1.getLast? = some x ∧ x.isAlpha = true) :
    ∀ t0, t0.getLast? = some '.' →
      (L.foldl (fun t fi => replacePhraseCI fi.1 fi.2 t) t0).getLast? =
        some '.' := by
  induction L with
  | nil =>
      intro t0 h
      exact h
  | cons fi L ih =>
      intro t0 h
      simp only [List.foldl_cons]
      obtain ⟨x, hx1, hx2⟩ := hL fi (List.mem_cons_self _ _)
      exact ih (fun fj hfj => hL fj (List.mem_cons_of_mem _ hfj)) _
        (replacePhraseCIF_last_dot fi.1 fi.2 x hx1 hx2 _ _ _ h)


/-- `take` of the length of a `takeWhile` prefix recovers it. -/
theorem take_length_takeWhile {α : Type} (p : α → Bool) (l : List α) :
    l.take (l.takeWhile p).length = l.takeWhile p :=
  (List.prefix_iff_eq_take.1 ( List.takeWhile_prefix p)).symm

/-- Dropping the length of the `takeWhile` prefix yields `dropWhile`. -/
theorem drop_length_takeWhile {α : Type} (p : α → Bool) (l : List α) :
    l.drop (l.takeWhile p).length = l.dropWhile p := by
  have h := List.takeWhile_append_dropWhile p l
  calc l.drop (l.takeWhile p).length
      = (l.takeWhile p ++ l.dropWhile p).drop (l.takeWhile p).length := by
        rw [h]
    _ = l.dropWhile p := List.drop_left' rfl

/-- Decomposition of a successful `edGroup` match: the group is the word
run starting at the position, it ends in `d`, and it is non-empty. -/
theorem edGroup_spec (s run : List Char) (h : edGroup s = some run) :
    run = s.takeWhile pyIsWord ∧ run.getLast? = some 'd' ∧ run ≠ [] := by
  simp only [edGroup] at h
  split at h
  · rename_i d e c3 rest heq
    split at h
    · rename_i hde
      rw [Option.some.injEq] at h
      subst h
      refine ⟨rfl, ?_, ?_⟩
      · rw [← List.head?_reverse, heq]
        simp [hde.1]
      · intro e0
        rw [e0] at heq
        simp at heq
    · simp at h
  · simp at h

/-- Decomposition of a successful `is being` match: the input splits as a
prefix ending in `d` followed by the returned suffix, and both returned
pieces consist of input characters. -/
theorem isBeingAt_some (prev : Option Char) (s run rest : List Char)
    (h : isBeingAt prev s = some (run, rest)) :
    (∃ pre, s = pre ++ rest ∧ pre.getLast? = some 'd') ∧
      (∀ c ∈ run, c ∈ s) ∧ (∀ c ∈ rest, c ∈ s) := by
  simp only [isBeingAt] at h
  split at h
  · simp at h
  · split at h
    · rename_i hpre
      split at h
      · simp at h
      · rename_i hsp
        split at h
        · rename_i run0 heq
          rw [Option.some.injEq, Prod.mk.injEq] at h
          obtain ⟨rfl, hrest⟩ := h
          have heq' : edGroup ((s.drop 8).dropWhile pyIsSpace) = some run0 := by
            rw [← drop_length_takeWhile pyIsSpace (s.drop 8)]
            exact heq
          obtain ⟨hrun, hlast, hne⟩ := edGroup_spec _ _ heq'
          have hrest' : ((s.drop 8).dropWhile pyIsSpace).drop run0.length = rest := by
            rw [← hrest, ← drop_length_takeWhile pyIsSpace (s.drop 8),
              List.drop_drop]
          have hA2 : run0 ++ rest = (s.drop 8).dropWhile pyIsSpace := by
            conv_rhs => rw [← List.take_append_drop run0.length
              ((s.drop 8).dropWhile pyIsSpace)]
            rw [hrest']
            congr 1
            rw [hrun, take_length_takeWhile]
          have hA1 : (s.drop 8).takeWhile pyIsSpace ++
              (s.drop 8).dropWhile pyIsSpace = s.drop 8 :=
            List.takeWhile_append_dropWhile pyIsSpace (s.drop 8)
          have hA0 : "is being".data ++ s.drop 8 = s := by
            obtain ⟨tl, htl⟩ := List.isPrefixOf_iff_prefix.1 hpre
            rw [← htl, List.drop_left' (by decide)]
          have hs : s = "is being".data ++
              ((s.drop 8).takeWhile pyIsSpace ++ (run0 ++ rest)) := by
            rw [hA2, hA1, hA0]
          refine ⟨⟨"is being".data ++
              ((s.drop 8).takeWhile pyIsSpace ++ run0), ?_, ?_⟩, ?_, ?_⟩
          · conv_lhs => rw [hs]
            simp [List.append_assoc]
          · rw [List.getLast?_append, List.getLast?_append, hlast]
            rfl
          · intro c hc
            rw [hrun] at hc
            have hc1 : c ∈ (s.drop 8).dropWhile pyIsSpace :=
              (List.takeWhile_sublist _).subset hc
            exact List.mem_of_mem_drop ((List.dropWhile_sublist _).subset hc1)
          · intro c hc
            rw [← hrest'] at hc
            exact List.mem_of_mem_drop
              ((List.dropWhile_sublist _).subset (List.mem_of_mem_drop hc))
        · simp at h
    · simp at h

/-- Decomposition of a successful `was … by …` match: the input splits as
a prefix ending in a word character followed by the returned suffix, and
all returned pieces consist of input characters. -/
theorem wasByAt_some (prev : Option Char) (s run1 run2 rest : List Char)
    (h : wasByAt prev s = some (run1, run2, rest)) :
    (∃ pre x, s = pre ++ rest ∧ pre.getLast? = some x ∧ pyIsWord x = true) ∧
      (∀ c ∈ run1, c ∈ s) ∧ (∀ c ∈ run2, c ∈ s) ∧ (∀ c ∈ rest, c ∈ s) := by
  simp only [wasByAt] at h
  split at h
  · simp at h
  · split at h
    · rename_i hpre
      split at h
      · simp at h
      · rename_i hsp1
        split at h
        · simp at h
        · rename_i run1x heq
          split at h
          · simp at h
          · rename_i hsp2
            split at h
            · rename_i hby
              split at h
              · simp at h
              · rename_i hsp3
                split at h
                · simp at h
                · rename_i hne2
                  rw [Option.some.injEq, Prod.mk.injEq, Prod.mk.injEq] at h
                  obtain ⟨rfl, hrun2, hrest⟩ := h
                  rw [hrun2] at hrest
                  set r0 := s.drop 3 with hr0def
                  set r1 := r0.drop ((r0.takeWhile pyIsSpace).length +
                    run1x.length) with hr1def
                  set r2 := r1.drop ((r1.takeWhile pyIsSpace).length + 2)
                    with hr2def
                  have hX1eq : edGroup (r0.dropWhile pyIsSpace) = some run1x := by
                    rw [← drop_length_takeWhile pyIsSpace r0]
                    exact heq
                  obtain ⟨hrun1, hlast1, hne1⟩ := edGroup_spec _ _ hX1eq
                  have hr1X : r1 = (r0.dropWhile pyIsSpace).drop run1x.length := by
                    rw [hr1def, ← List.drop_drop, drop_length_takeWhile]
                  have hA2 : run1x ++ r1 = r0.dropWhile pyIsSpace := by
                    conv_rhs => rw [← List.take_append_drop run1x.length
                      (r0.dropWhile pyIsSpace)]
                    rw [← hr1X]
                    congr 1
                    rw [hrun1, take_length_takeWhile]
                  have hby' : "by".data.isPrefixOf (r1.dropWhile pyIsSpace) = true := by
                    rw [← drop_length_takeWhile pyIsSpace r1]
                    exact hby
                  obtain ⟨tl2, htl2⟩ := List.isPrefixOf_iff_prefix.1 hby'
                  have hA4 : "by".data ++ r2 = r1.dropWhile pyIsSpace := by
                    rw [← htl2]
                    congr 1
                    rw [hr2def, ← List.drop_drop, drop_length_takeWhile,
                      ← htl2, List.drop_left' (by decide)]
                  have hrun2' : (r2.dropWhile pyIsSpace).takeWhile pyIsWord = run2 := by
                    rw [← drop_length_takeWhile pyIsSpace r2]
                    exact hrun2
                  have hrestX : (r2.dropWhile pyIsSpace).drop run2.length = rest := by
                    rw [← hrest, ← drop_length_takeWhile pyIsSpace r2,
                      List.drop_drop]
                  have hA6 : run2 ++ rest = r2.dropWhile pyIsSpace := by
                    conv_rhs => rw [← List.take_append_drop run2.length
                      (r2.dropWhile pyIsSpace)]
                    rw [hrestX]
                    congr 1
                    rw [← hrun2', take_length_takeWhile]
                  have hA5 : r2.takeWhile pyIsSpace ++ r2.dropWhile pyIsSpace = r2 :=
                    List.takeWhile_append_dropWhile pyIsSpace r2
                  have hA3 : r1.takeWhile pyIsSpace ++ r1.dropWhile pyIsSpace = r1 :=
                    List.takeWhile_append_dropWhile pyIsSpace r1
                  have hA1 : r0.takeWhile pyIsSpace ++ r0.dropWhile pyIsSpace = r0 :=
                    List.takeWhile_append_dropWhile pyIsSpace r0
                  have hA0 : "was".data ++ r0 = s := by
                    obtain ⟨tl0, htl0⟩ := List.isPrefixOf_iff_prefix.1 hpre
                    rw [hr0def, ← htl0, List.drop_left' (by decide)]
                  have hs : s = "was".data ++ (r0.takeWhile pyIsSpace ++
                      (run1x ++ (r1.takeWhile pyIsSpace ++ ("by".data ++
                      (r2.takeWhile pyIsSpace ++ (run2 ++ rest)))))) := by
                    rw [hA6, hA5, hA4, hA3, hA2, hA1, hA0]
                  have hrun2ne : run2 ≠ [] := by
                    intro e0
                    apply hne2
                    rw [drop_length_takeWhile, hrun2', e0]
                  obtain ⟨x, hx⟩ : ∃ x, run2.getLast? = some x := by
                    cases hgl : run2.getLast? with
                    | none => exact absurd (List.getLast?_eq_none_iff.1 hgl) hrun2ne
                    | some y => exact ⟨y, rfl⟩
                  have hxword : pyIsWord x = true := by
                    have hxmem : x ∈ run2 := List.mem_of_getLast?_eq_some hx
                    rw [← hrun2'] at hxmem
                    exact List.mem_takeWhile_imp hxmem
                  have memr2 : ∀ c, c ∈ r2 → c ∈ s := by
                    intro c h1
                    rw [hr2def] at h1
                    have h2 : c ∈ r1 := List.mem_of_mem_drop h1
                    rw [hr1def] at h2
                    have h3 : c ∈ r0 := List.mem_of_mem_drop h2
                    rw [hr0def] at h3
                    exact List.mem_of_mem_drop h3
                  refine ⟨⟨"was".data ++ (r0.takeWhile pyIsSpace ++
                      (run1x ++ (r1.takeWhile pyIsSpace ++ ("by".data ++
                      (r2.takeWhile pyIsSpace ++ run2))))), x, ?_, ?_, hxword⟩,
                    ?_, ?_, ?_⟩
                  · conv_lhs => rw [hs]
                    simp [List.append_assoc]
                  · rw [List.getLast?_append, List.getLast?_append,
                      List.getLast?_append, List.getLast?_append,
                      List.getLast?_append, List.getLast?_append, hx]
                    rfl
                  · intro c hc
                    rw [hrun1] at hc
                    have hc1 : c ∈ r0.dropWhile pyIsSpace :=
                      (List.takeWhile_sublist _).subset hc
                    have hc2 : c ∈ r0 := (List.dropWhile_sublist _).subset hc1
                    rw [hr0def] at hc2
                    exact List.mem_of_mem_drop hc2
                  · intro c hc
                    rw [← hrun2'] at hc
                    exact memr2 c ((List.dropWhile_sublist _).subset
                      ((List.takeWhile_sublist _).subset hc))
                  · intro c hc
                    rw [← hrestX] at hc
                    exact memr2 c ((List.dropWhile_sublist _).subset
                      (List.mem_of_mem_drop hc))
            · simp at h
    · simp at h


/-- Characters of the `is being` rewrite come from the text or from the
inserted `is …ing` letters. -/
theorem mem_isBeingSubF :
    ∀ fuel prev s, ∀ c ∈ isBeingSubF fuel prev s,
      c ∈ s ∨ c ∈ ['i', 's', ' ', 'n', 'g'] := by
  intro fuel
  induction fuel with
  | zero =>
      intro prev s c hc
      exact Or.inl hc
  | succ fuel ih =>
      intro prev s c hc
      cases s with
      | nil => simp [isBeingSubF] at hc
      | cons c0 s' =>
          rcases hm : isBeingAt prev (c0 :: s') with _ | ⟨run, rest⟩
          · simp only [isBeingSubF, hm] at hc
            rcases List.mem_cons.1 hc with h | h
            · exact Or.inl (h ▸ List.mem_cons_self _ _)
            · rcases ih _ _ c h with h1 | h1
              · exact Or.inl (List.mem_cons_of_mem _ h1)
              · exact Or.inr h1
          · simp only [isBeingSubF, hm] at hc
            obtain ⟨_, hm1, hm2⟩ := isBeingAt_some prev (c0 :: s') run rest hm
            rcases List.mem_append.1 hc with h | h
            · rcases List.mem_append.1 h with h1 | h1
              · rcases List.mem_append.1 h1 with h2 | h2
                · right
                  have h' : c = 'i' ∨ c = 's' ∨ c = ' ' := by
                    simpa using (show c ∈ ['i', 's', ' '] from h2)
                  rcases h' with rfl | rfl | rfl <;> decide
                · exact Or.inl (hm1 c h2)
              · right
                have h' : c = 'i' ∨ c = 'n' ∨ c = 'g' := by
                  simpa using (show c ∈ ['i', 'n', 'g'] from h1)
                rcases h' with rfl | rfl | rfl <;> decide
            · rcases ih _ _ c h with h3 | h3
              · exact Or.inl (hm2 c h3)
              · exact Or.inr h3

/-- Characters of the `was … by …` rewrite come from the text or are the
inserted space. -/
theorem mem_wasBySubF :
    ∀ fuel prev s, ∀ c ∈ wasBySubF fuel prev s, c ∈ s ∨ c = ' ' := by
  intro fuel
  induction fuel with
  | zero =>
      intro prev s c hc
      exact Or.inl hc
  | succ fuel ih =>
      intro prev s c hc
      cases s with
      | nil => simp [wasBySubF] at hc
      | cons c0 s' =>
          rcases hm : wasByAt prev (c0 :: s') with _ | ⟨run1, run2, rest⟩
          · simp only [wasBySubF, hm] at hc
            rcases List.mem_cons.1 hc with h | h
            · exact Or.inl (h ▸ List.mem_cons_self _ _)
            · rcases ih _ _ c h with h1 | h1
              · exact Or.inl (List.mem_cons_of_mem _ h1)
              · exact Or.inr h1
          · simp only [wasBySubF, hm] at hc
            obtain ⟨_, hm1, hm2, hm3⟩ := wasByAt_some prev (c0 :: s') run1 run2 rest hm
            rcases List.mem_append.1 hc with h | h
            · rcases List.mem_append.1 h with h1 | h1
              · exact Or.inl (hm2 c h1)
              · rcases List.mem_cons.1 h1 with h2 | h2
                · exact Or.inr h2
                · exact Or.inl (hm1 c h2)
            · rcases ih _ _ c h with h3 | h3
              · exact Or.inl (hm3 c h3)
              · exact Or.inr h3

/-- The `is being` rewrite preserves a trailing period. -/
theorem isBeingSubF_last_dot :
    ∀ fuel prev s, s.getLast? = some '.' →
      (isBeingSubF fuel prev s).getLast? = some '.' := by
  intro fuel
  induction fuel with
  | zero =>
      intro prev s h
      exact h
  | succ fuel ih =>
      intro prev s h
      cases s with
      | nil => simp at h
      | cons c0 s' =>
          rcases hm : isBeingAt prev (c0 :: s') with _ | ⟨run, rest⟩
          · simp only [isBeingSubF, hm]
            cases s' with
            | nil =>
                have he : isBeingSubF fuel (some c0) [] = [] := by
                  cases fuel <;> rfl
                rw [he]
                exact h
            | cons d s'' =>
                have h' : (d :: s'').getLast? = some '.' := by
                  rwa [List.getLast?_cons_cons] at h
                have hrec := ih (some c0) (d :: s'') h'
                have hne : isBeingSubF fuel (some c0) (d :: s'') ≠ [] := by
                  intro e
                  rw [e] at hrec
                  simp at hrec
                rcases List.exists_cons_of_ne_nil hne with ⟨z, zs, hz⟩
                rw [hz] at hrec ⊢
                rw [List.getLast?_cons_cons]
                exact hrec
          · obtain ⟨⟨pre, hsplit, hlast⟩, _, _⟩ :=
              isBeingAt_some prev (c0 :: s') run rest hm
            have hrne : rest ≠ [] := by
              intro e
              rw [e, List.append_nil] at hsplit
              rw [hsplit, hlast] at h
              simp at h
            have hrest_dot : rest.getLast? = some '.' := by
              rw [hsplit, List.getLast?_append] at h
              rcases hgl : rest.getLast? with _ | y
              · exact absurd (List.getLast?_eq_none_iff.1 hgl) hrne
              · rw [hgl] at h
                have : y = '.' := by simpa using h
                rw [this]
            have hrec := ih run.getLast? rest hrest_dot
            simp only [isBeingSubF, hm]
            rw [List.getLast?_append, hrec]
            rfl

/-- The `was … by …` rewrite preserves a trailing period. -/
theorem wasBySubF_last_dot :
    ∀ fuel prev s, s.getLast? = some '.' →
      (wasBySubF fuel prev s).getLast? = some '.' := by
  intro fuel
  induction fuel with
  | zero =>
      intro prev s h
      exact h
  | succ fuel ih =>
      intro prev s h
      cases s with
      | nil => simp at h
      | cons c0 s' =>
          rcases hm : wasByAt prev (c0 :: s') with _ | ⟨run1, run2, rest⟩
          · simp only [wasBySubF, hm]
            cases s' with
            | nil =>
                have he : wasBySubF fuel (some c0) [] = [] := by
                  cases fuel <;> rfl
                rw [he]
                exact h
            | cons d s'' =>
                have h' : (d :: s'').getLast? = some '.' := by
                  rwa [List.getLast?_cons_cons] at h
                have hrec := ih (some c0) (d :: s'') h'
                have hne : wasBySubF fuel (some c0) (d :: s'') ≠ [] := by
                  intro e
                  rw [e] at hrec
                  simp at hrec
                rcases List.exists_cons_of_ne_nil hne with ⟨z, zs, hz⟩
                rw [hz] at hrec ⊢
                rw [List.getLast?_cons_cons]
                exact hrec
          · obtain ⟨⟨pre, x, hsplit, hxl, hxword⟩, _, _, _⟩ :=
              wasByAt_some prev (c0 :: s') run1 run2 rest hm
            have hrne : rest ≠ [] := by
              intro e
              rw [e, List.append_nil] at hsplit
              rw [hsplit, hxl] at h
              have hxeq : x = '.' := by simpa using h
              rw [hxeq] at hxword
              exact absurd hxword (by decide)
            have hrest_dot : rest.getLast? = some '.' := by
              rw [hsplit, List.getLast?_append] at h
              rcases hgl : rest.getLast? with _ | y
              · exact absurd (List.getLast?_eq_none_iff.1 hgl) hrne
              · rw [hgl] at h
                have : y = '.' := by simpa using h
                rw [this]
            have hrec := ih run2.getLast? rest hrest_dot
            simp only [wasBySubF, hm]
            rw [List.getLast?_append, hrec]
            rfl


/-- Every contraction phrase ends in the letter `t`. -/
theorem contractions_end_letter :
    ∀ fi ∈ contractions_map, ∃ x, fi.1.getLast? = some x ∧ x.isAlpha = true := by
  have hb : ∀ fi ∈ contractions_map, fi.1.getLast? = some 't' := by decide
  intro fi hfi
  exact ⟨'t', hb fi hfi, by decide⟩

/-- Every complex-vocabulary phrase ends in a letter. -/
theorem complex_end_letter :
    ∀ cs ∈ complex_to_simple, ∃ x, cs.1.getLast? = some x ∧ x.isAlpha = true := by
  have hb : ∀ cs ∈ complex_to_simple,
      cs.1.getLast?.elim false Char.isAlpha = true := by decide
  intro cs hcs
  have h := hb cs hcs
  rcases hgl : cs.1.getLast? with _ | y
  · rw [hgl] at h
    simp [Option.elim] at h
  · rw [hgl] at h
    exact ⟨y, rfl, h⟩

/-- A non-alphabetic character that is neither a period, a space, nor part
of an inserted expression and appears in no contraction replacement cannot
be introduced by `_inject_personal_style`. -/
theorem inject_keeps_char (p : HProfile) (rng : Rng) (t : List Char)
    (x : Char) (hxa : x.isAlpha = false) (hxd : x ≠ '.') (hxs : x ≠ ' ')
    (hx1 : x ∉ "I think ".data) (hx2 : x ∉ "In my opinion, ".data)
    (hx3 : ∀ fi ∈ contractions_map, x ∉ fi.2)
    (hxt : x ∉ t) : x ∉ inject_personal_style p rng t := by
  intro hc
  simp only [inject_personal_style] at hc
  set T1 := (if p.contractions_usage.getD 0 > 0.1 then
      contractions_map.foldl (fun t fi => replacePhraseCI fi.1 fi.2 t) t
      else t) with hT1def
  have hT1 : x ∉ T1 := by
    rw [hT1def]
    split
    · intro hcf
      rcases mem_foldl_replace _ _ x hcf with h | ⟨fi, hfi, hxc⟩
      · exact hxt h
      · exact hx3 fi hfi hxc
    · exact hxt
  set S := pySplitChar '.' T1 with hSdef
  set idx := rng.pick % (S.length - 1) with hidxdef
  set elem := pyStrip (S.getD idx []) with helemdef
  split at hc
  · split at hc
    · rcases mem_pyJoin _ _ x hc with hsep | ⟨w, hw, hxw⟩
      · have h' : x = '.' ∨ x = ' ' := by simpa using hsep
        rcases h' with h | h
        · exact hxd h
        · exact hxs h
      · split at hw
        · split at hw
          · rcases List.mem_or_eq_of_mem_set hw with hmem | rfl
            · refine hT1 (mem_pySplitChar '.' T1 w ?_ x hxw)
              rw [← hSdef]
              exact hmem
            · rcases List.mem_append.1 hxw with h | h
              · split at h
                · exact hx1 h
                · exact hx2 h
              · obtain ⟨d, hd, hdx⟩ := mem_pyLower x _ h
                rw [pyLowerChar_eq_nonalpha d x hxa hdx] at hd
                rw [helemdef] at hd
                have hmem : x ∈ S.getD idx [] := mem_pyStrip x _ hd
                rw [List.getD_eq_getElem?_getD] at hmem
                cases hg : S[idx]? with
                | none =>
                    rw [hg] at hmem
                    simp at hmem
                | some w2 =>
                    rw [hg, Option.getD_some] at hmem
                    have hw2 : w2 ∈ S := by
                      obtain ⟨hlt, rfl⟩ := List.getElem?_eq_some_iff.1 hg
                      exact List.getElem_mem hlt
                    rw [hSdef] at hw2
                    exact hT1 (mem_pySplitChar '.' T1 w2 hw2 x hmem)
          · refine hT1 (mem_pySplitChar '.' T1 w ?_ x hxw)
            rw [← hSdef]
            exact hw
        · refine hT1 (mem_pySplitChar '.' T1 w ?_ x hxw)
          rw [← hSdef]
          exact hw
    · exact hT1 hc
  · exact hT1 hc

/-- A character appearing in no vocabulary replacement cannot be
introduced by `_adjust_vocabulary`. -/
theorem vocab_keeps_char (p : HProfile) (t : List Char) (x : Char)
    (hrep : ∀ cs ∈ complex_to_simple, x ∉ cs.2)
    (hxt : x ∉ t) : x ∉ adjust_vocabulary p t := by
  simp only [adjust_vocabulary]
  split
  · intro hc
    rcases mem_foldl_replace _ _ x hc with h | ⟨cs, hcs, hxc⟩
    · exact hxt h
    · exact hrep cs hcs hxc
  · exact hxt

/-- A character other than the inserted `is …ing` letters and the space
cannot be introduced by `_adjust_tone`. -/
theorem tone_keeps_char (p : HProfile) (t : List Char) (x : Char)
    (hxl : x ∉ ['i', 's', ' ', 'n', 'g'])
    (hxt : x ∉ t) : x ∉ adjust_tone p t := by
  simp only [adjust_tone, wasBySub, isBeingSub]
  split
  · intro hc
    rcases mem_wasBySubF _ _ _ x hc with h1 | h1
    · rcases mem_isBeingSubF _ _ _ x h1 with h2 | h2
      · exact hxt h2
      · exact hxl h2
    · subst h1
      exact hxl (by decide)
  · exact hxt

/-- When stage 1 produced at least one fragment its output ends with a
period. -/
theorem stage1_last_dot (p : HProfile) (t : List Char)
    (h : stage1Fragments p t ≠ []) :
    (adjust_sentence_length p t).getLast? = some '.' := by
  simp only [adjust_sentence_length]
  rw [if_pos h, List.getLast?_concat]

/-- With no personal expressions recorded, `_inject_personal_style`
preserves a trailing period. -/
theorem inject_last_dot (p : HProfile) (rng : Rng) (t : List Char)
    (hpe : p.personal_expressions.getD [] = [])
    (h : t.getLast? = some '.') :
    (inject_personal_style p rng t).getLast? = some '.' := by
  have hnc : ¬(p.personal_expressions.getD [] ≠ [] ∧
      (pySplitChar '.' (if p.contractions_usage.getD 0 > 0.1 then
        contractions_map.foldl (fun t fi => replacePhraseCI fi.1 fi.2 t) t
        else t)).length > 1) := by
    simp [hpe]
  simp only [inject_personal_style]
  rw [if_neg hnc]
  split
  · exact foldl_replace_last_dot contractions_map contractions_end_letter _ h
  · exact h

/-- `_adjust_vocabulary` preserves a trailing period. -/
theorem vocab_last_dot (p : HProfile) (t : List Char)
    (h : t.getLast? = some '.') :
    (adjust_vocabulary p t).getLast? = some '.' := by
  simp only [adjust_vocabulary]
  split
  · exact foldl_replace_last_dot complex_to_simple complex_end_letter _ h
  · exact h

/-- `_adjust_tone` preserves a trailing period. -/
theorem tone_last_dot (p : HProfile) (t : List Char)
    (h : t.getLast? = some '.') :
    (adjust_tone p t).getLast? = some '.' := by
  simp only [adjust_tone, wasBySub, isBeingSub]
  split
  · exact wasBySubF_last_dot _ _ _ (isBeingSubF_last_dot _ _ _ h)
  · exact h


/-- Claim C10 (amended): for every profile, randomness and input whose
strip is non-empty, `humanize_text` outputs no `!` and no `?` (stage 1
discards every run terminator and rejoins on `. `, and no later stage
introduces one); and when the profile records no personal expressions and
stage 1 produced at least one fragment, the output ends with a period. -/
theorem c10_no_terminators (p : HProfile) (rng : Rng) (t : List Char)
    (hs : pyStrip t ≠ []) :
    ('!' ∉ humanize_text p rng t ∧ '?' ∉ humanize_text p rng t) ∧
      (p.personal_expressions.getD [] = [] → stage1Fragments p t ≠ [] →
        (humanize_text p rng t).getLast? = some '.') := by
  have hpipe : humanize_text p rng t =
      adjust_tone p (adjust_vocabulary p
        (inject_personal_style p rng (adjust_sentence_length p t))) := by
    simp only [humanize_text]
    rw [if_neg hs]
  constructor
  · have hterm : ∀ x : Char, x.isAlpha = false → x ≠ '.' → x ≠ ' ' →
        x ∉ "I think ".data → x ∉ "In my opinion, ".data →
        (∀ fi ∈ contractions_map, x ∉ fi.2) →
        (∀ cs ∈ complex_to_simple, x ∉ cs.2) →
        x ∉ ['i', 's', ' ', 'n', 'g'] →
        isSentEnd x = true →
        x ∉ humanize_text p rng t := by
      intro x hxa hxd hxs h1 h2 h3 h4 h5 h6
      rw [hpipe]
      refine tone_keeps_char _ _ _ h5 ?_
      refine vocab_keeps_char _ _ _ h4 ?_
      refine inject_keeps_char _ _ _ _ hxa hxd hxs h1 h2 h3 ?_
      intro hc
      rcases stage1_chars p t x hc with h | h | ⟨_, hse⟩
      · exact hxd h
      · exact hxs h
      · rw [h6] at hse
        cases hse
    exact ⟨hterm '!' (by decide) (by decide) (by decide) (by decide)
        (by decide) (by decide) (by decide) (by decide) (by decide),
      hterm '?' (by decide) (by decide) (by decide) (by decide)
        (by decide) (by decide) (by decide) (by decide) (by decide)⟩
  · intro hpe hfr
    rw [hpipe]
    exact tone_last_dot _ _ (vocab_last_dot _ _
      (inject_last_dot _ _ _ hpe (stage1_last_dot _ _ hfr)))

set_option maxRecDepth 400000 in
set_option maxHeartbeats 4000000 in
/-- Witness for the amended C10 at a concrete profile and text. -/
theorem c10_witness :
    ('!' ∉ humanize_text ⟨none, none, none, none, none, none⟩
        ⟨1, 0, true⟩ "Hello there.".data ∧
      '?' ∉ humanize_text ⟨none, none, none, none, none, none⟩
        ⟨1, 0, true⟩ "Hello there.".data) ∧
    (humanize_text ⟨none, none, none, none, none, none⟩
        ⟨1, 0, true⟩ "Hello there.".data).getLast? = some '.' := by
  obtain ⟨h1, h2⟩ := c10_no_terminators ⟨none, none, none, none, none, none⟩
    ⟨1, 0, true⟩ "Hello there.".data (by decide)
  exact ⟨h1, h2 (by decide) (by with_unfolding_all decide)⟩


/-- The enumeration-based index filter agrees with the positional
description, generalized over the enumeration start. -/
theorem enumFrom_filter_fst (C : List Char → Bool) (l : List (List Char)) :
    ∀ n, ((List.enumFrom n l).filter (fun iw => C iw.2)).map (fun iw => iw.1) =
      ((List.range l.length).filter (fun i => C (l.getD i []))).map (· + n) := by
  induction l with
  | nil =>
      intro n
      rfl
  | cons a l ih =>
      intro n
      rw [List.enumFrom_cons, List.length_cons, List.range_succ_eq_map]
      have hfil : (List.range l.length).filter
          ((fun i => C ((a :: l).getD i [])) ∘ Nat.succ) =
          (List.range l.length).filter (fun i => C (l.getD i [])) :=
        List.filter_congr (fun i _ => by simp [Function.comp])
      by_cases hC : C a = true
      · rw [@List.filter_cons_of_pos (Nat × List Char) (fun iw => C iw.2)
            (n, a) (List.enumFrom (n + 1) l) hC,
          @List.filter_cons_of_pos Nat (fun i => C ((a :: l).getD i [])) 0
            (List.map Nat.succ (List.range l.length)) hC,
          List.map_cons, List.map_cons, ih (n + 1), List.filter_map,
          List.map_map, hfil]
        refine congrArg₂ List.cons (by omega) ?_
        refine List.map_congr_left ?_
        intro i _
        simp only [Function.comp]
        omega
      · rw [@List.filter_cons_of_neg (Nat × List Char) (fun iw => C iw.2)
            (n, a) (List.enumFrom (n + 1) l) hC,
          @List.filter_cons_of_neg Nat (fun i => C ((a :: l).getD i [])) 0
            (List.map Nat.succ (List.range l.length)) hC,
          ih (n + 1), List.filter_map, List.map_map, hfil]
        refine List.map_congr_left ?_
        intro i _
        simp only [Function.comp]
        omega

/-- The positional conjunction indices equal the source's
enumeration-based split points. -/
theorem specConjIndices_eq (ws : List (List Char)) :
    specConjIndices ws = splitPoints ws := by
  have h := enumFrom_filter_fst
    (fun w => conjunctions.contains (pyLower w)) ws 0
  simp only [specConjIndices, splitPoints, List.enum]
  rw [h]
  have h2 : List.map (fun x : Nat => x + 0)
      ((List.range ws.length).filter
        (fun i => conjunctions.contains (pyLower (ws.getD i [])))) =
      List.map id ((List.range ws.length).filter
        (fun i => conjunctions.contains (pyLower (ws.getD i [])))) :=
    List.map_congr_left (fun i _ => Nat.add_zero i)
  rw [h2, List.map_id]

/-- `find?` over a decomposition whose earlier elements all fail the
predicate returns the marked element. -/
theorem find?_first {α : Type} (P : α → Bool) (l1 l2 : List α) (b : α)
    (hb : P b = true) (h1 : ∀ j ∈ l1, P j = false) :
    (l1 ++ b :: l2).find? P = some b := by
  induction l1 with
  | nil => exact List.find?_cons_of_pos l2 hb
  | cons z l1x ih =>
      rw [List.cons_append,
        List.find?_cons_of_neg _ (by simp [h1 z (List.mem_cons_self _ _)])]
      exact ih (fun j hj => h1 j (List.mem_cons_of_mem _ hj))

/-- The kept split point minimizes the distance to the midpoint. -/
theorem minByDist_le (mid : Nat) :
    ∀ xs x j, j ∈ x :: xs →
      midDist mid (minByDistAux mid x xs) ≤ midDist mid j := by
  intro xs
  induction xs with
  | nil =>
      intro x j hj
      rcases List.mem_singleton.1 hj with rfl
      simp only [minByDistAux]
      exact Nat.le_refl _
  | cons y ys ih =>
      intro x j hj
      simp only [minByDistAux]
      split
      · rename_i hlt
        rcases List.mem_cons.1 hj with rfl | hj2
        · exact Nat.le_trans (ih y y (List.mem_cons_self _ _))
            (Nat.le_of_lt hlt)
        · exact ih y j hj2
      · rename_i hge
        rcases List.mem_cons.1 hj with rfl | hj2
        · exact ih j j (List.mem_cons_self _ _)
        · rcases List.mem_cons.1 hj2 with rfl | hj3
          · exact Nat.le_trans (ih x x (List.mem_cons_self _ _))
              (Nat.le_of_not_lt hge)
          · exact ih x j (List.mem_cons_of_mem _ hj3)

/-- The kept split point is the first minimizer: everything listed before
it lies strictly farther from the midpoint. -/
theorem minByDist_decomp (mid : Nat) :
    ∀ xs x, ∃ l1 l2, x :: xs = l1 ++ minByDistAux mid x xs :: l2 ∧
      ∀ j ∈ l1, midDist mid (minByDistAux mid x xs) < midDist mid j := by
  intro xs
  induction xs with
  | nil =>
      intro x
      exact ⟨[], [], rfl, by simp⟩
  | cons y ys ih =>
      intro x
      simp only [minByDistAux]
      split
      · rename_i hlt
        obtain ⟨l1, l2, hdec, hfar⟩ := ih y
        refine ⟨x :: l1, l2, ?_, ?_⟩
        · rw [List.cons_append, ← hdec]
        · intro j hj
          rcases List.mem_cons.1 hj with rfl | hj2
          · exact Nat.lt_of_le_of_lt
              (minByDist_le mid ys y y (List.mem_cons_self _ _)) hlt
          · exact hfar j hj2
      · rename_i hge
        obtain ⟨l1, l2, hdec, hfar⟩ := ih x
        cases l1 with
        | nil =>
            rw [List.nil_append] at hdec
            injection hdec with h1 h2
            refine ⟨[], y :: ys, ?_, by simp⟩
            rw [List.nil_append, ← h1]
        | cons z l1x =>
            rw [List.cons_append] at hdec
            injection hdec with h1 h2
            refine ⟨x :: y :: l1x, l2, ?_, ?_⟩
            · rw [List.cons_append, List.cons_append, ← h2]
            · intro j hj
              have hbx : midDist mid (minByDistAux mid x ys) < midDist mid x := by
                have hz := hfar z (List.mem_cons_self _ _)
                rw [← h1] at hz
                exact hz
              rcases List.mem_cons.1 hj with rfl | hj2
              · exact hbx
              · rcases List.mem_cons.1 hj2 with rfl | hj3
                · exact Nat.lt_of_lt_of_le hbx (Nat.le_of_not_lt hge)
                · exact hfar j (List.mem_cons_of_mem _ hj3)

/-- The first split point whose distance to the midpoint is minimal is
exactly the one the source's `min` keeps. -/
theorem specFirstClosest_eq (mid : Nat) (x : Nat) (xs : List Nat) :
    specFirstClosest mid (x :: xs) = some (minByDistAux mid x xs) := by
  obtain ⟨l1, l2, hdec, hfar⟩ := minByDist_decomp mid xs x
  rw [specFirstClosest, hdec]
  refine find?_first _ l1 l2 _ ?_ ?_
  · rw [← hdec]
    simp only [List.all_eq_true, decide_eq_true_eq]
    intro j hj
    exact minByDist_le mid xs x j hj
  · intro j hj
    refine List.all_eq_false.2 ⟨minByDistAux mid x xs,
      List.mem_append_right _ (List.mem_cons_self _ _), ?_⟩
    simp only [decide_eq_true_eq]
    exact not_le.2 (hfar j hj)

/-- The per-sentence loop body agrees with the claim's per-sentence
description. -/
theorem processSentence_eq_spec (target : ℚ) (s : List Char) :
    processSentence target s = specFragments target s := by
  simp only [processSentence, specFragments]
  by_cases hgt : ((pySplitWs (pyStrip s)).length : ℚ) > target * 1.5
  · rw [if_pos hgt, if_neg (not_le.2 hgt), specConjIndices_eq]
    cases hsp : splitPoints (pySplitWs (pyStrip s)) with
    | nil => rfl
    | cons x xs =>
        rw [specFirstClosest_eq]
  · rw [if_neg hgt, if_pos (not_lt.1 hgt)]

/-- Claim C5 (amended): the target length is the profile's
`avg_sentence_length` whenever the field is present — including zero — and
15 only when it is absent; with that target, every stage-1 sentence at or
below 1.5 × target, or without a conjunction, passes through intact, and
every other one is split into exactly two fragments at the conjunction
occurrence closest to the midpoint, earliest on ties. -/
theorem c5_adjust_matches_spec (p : HProfile) (t : List Char) :
    adjust_sentence_length p t = specAdjust p t := by
  have htar : p.avg_sentence_length.getD 15 = specTarget p := by
    simp only [specTarget]
    cases p.avg_sentence_length <;> rfl
  have hps : processSentence (specTarget p) = specFragments (specTarget p) :=
    funext (fun s => processSentence_eq_spec (specTarget p) s)
  simp only [adjust_sentence_length, specAdjust, stage1Fragments, htar, hps]


/-- A match of the collapse pattern cannot start on a non-newline. -/
theorem collapseLen_cons_ne (c : Char) (x : List Char) (hc : ¬ c = '\n') :
    collapseLen (c :: x) = none := by
  unfold collapseLen
  split
  · rename_i y heq
    injection heq with h1 h2
    exact absurd h1 hc
  · rfl

/-- Evaluation of `collapseLen` on a newline-headed string. -/
theorem collapseLen_cons_nl (x : List Char) :
    collapseLen ('\n' :: x) =
      if 3 ≤ ((('\n' :: x).takeWhile pyIsSpace).count '\n') then
        some ((('\n' :: x).takeWhile pyIsSpace).length -
          ((('\n' :: x).takeWhile pyIsSpace).reverse.takeWhile
            (fun c => !(c == '\n'))).length)
      else none := rfl

/-- A whitespace prefix holding fewer than three newlines cannot start a
collapse match. -/
theorem collapseLen_none_of_count (s : List Char)
    (h : (s.takeWhile pyIsSpace).count '\n' < 3) : collapseLen s = none := by
  cases s with
  | nil => rfl
  | cons c x =>
      by_cases hc : c = '\n'
      · subst hc
        rw [collapseLen_cons_nl, if_neg (by omega)]
      · exact collapseLen_cons_ne c x hc

/-- A successful collapse match starts on a newline and sees at least
three newlines in its whitespace prefix. -/
theorem collapseLen_some_spec (s : List Char) (k : Nat)
    (h : collapseLen s = some k) :
    ∃ x, s = '\n' :: x ∧ 3 ≤ ((s.takeWhile pyIsSpace).count '\n') := by
  cases s with
  | nil => exact absurd h (by simp [collapseLen])
  | cons c x =>
      by_cases hc : c = '\n'
      · subst hc
        refine ⟨x, rfl, ?_⟩
        by_contra hcount
        rw [collapseLen_cons_nl, if_neg hcount] at h
        cases h
      · rw [collapseLen_cons_ne c x hc] at h
        cases h

/-- Appending on the right cannot decrease the newline count of the
whitespace prefix. -/
theorem count_takeWhile_le_append (s b : List Char) :
    ((s.takeWhile pyIsSpace).count '\n') ≤
      (((s ++ b).takeWhile pyIsSpace).count '\n') := by
  rw [List.takeWhile_append]
  split
  · rw [List.count_append]
    exact Nat.le_trans ((List.takeWhile_sublist _).count_le '\n')
      (Nat.le_add_right _ _)
  · exact Nat.le_refl _

/-- A collapse match inside a prefix extends to the whole string. -/
theorem collapseLen_none_of_append (s b : List Char)
    (h : collapseLen (s ++ b) = none) : collapseLen s = none := by
  cases hs : collapseLen s with
  | none => rfl
  | some k =>
      obtain ⟨x, hx, hcount⟩ := collapseLen_some_spec s k hs
      subst hx
      have h3 : 3 ≤ ((('\n' :: (x ++ b)).takeWhile pyIsSpace).count '\n') := by
        have := count_takeWhile_le_append ('\n' :: x) b
        rw [List.cons_append] at this
        exact Nat.le_trans hcount this
      rw [List.cons_append, collapseLen_cons_nl, if_pos h3] at h
      cases h


/-- When a match of collapseLen ends inside the whitespace prefix,
dropping commutes with `takeWhile`. -/
theorem takeWhile_drop_of_le (p : Char → Bool) :
    ∀ n (l : List Char), n ≤ (l.takeWhile p).length →
      (l.drop n).takeWhile p = (l.takeWhile p).drop n := by
  intro n
  induction n with
  | zero =>
      intro l _
      rfl
  | succ n ih =>
      intro l h
      cases l with
      | nil => simp at h
      | cons c s =>
          have hpc : p c = true := by
            by_contra hpc
            rw [List.takeWhile_cons_of_neg hpc] at h
            simp at h
          rw [List.takeWhile_cons_of_pos hpc] at h ⊢
          rw [List.drop_succ_cons, List.drop_succ_cons]
          exact ih s (by simpa using h)

/-- A newline-headed string on which the collapse pattern fails has fewer
than three newlines in its whitespace prefix. -/
theorem collapseLen_nl_count (x : List Char)
    (h : collapseLen ('\n' :: x) = none) :
    (('\n' :: x).takeWhile pyIsSpace).count '\n' < 3 := by
  by_contra h3
  rw [collapseLen_cons_nl, if_pos (by omega)] at h
  cases h

/-- The collapse pass, run with enough fuel, leaves no startable match in
its output and does not increase the newline count of the leading
whitespace run. -/
theorem subCollapseF_spec :
    ∀ fuel l, l.length ≤ fuel →
      (∀ s, s <:+ subCollapseF fuel l → collapseLen s = none) ∧
      ((subCollapseF fuel l).takeWhile pyIsSpace).count '\n' ≤
        (l.takeWhile pyIsSpace).count '\n' := by
  intro fuel
  induction fuel with
  | zero =>
      intro l hl
      have hnil : l = [] := List.length_eq_zero.1 (Nat.le_zero.1 hl)
      subst hnil
      refine ⟨fun s hs => ?_, Nat.le_refl _⟩
      rw [List.suffix_nil.1 hs]
      rfl
  | succ fuel ih =>
      intro l hl
      cases l with
      | nil =>
          refine ⟨fun s hs => ?_, Nat.le_refl _⟩
          rw [List.suffix_nil.1 hs]
          rfl
      | cons c s =>
          have hls : s.length ≤ fuel := by
            rw [List.length_cons] at hl
            omega
          cases hm : collapseLen (c :: s) with
          | none =>
              obtain ⟨ihNT, ihCount⟩ := ih s hls
              have hout : subCollapseF (fuel + 1) (c :: s) =
                  c :: subCollapseF fuel s := by
                simp only [subCollapseF, hm]
              refine ⟨?_, ?_⟩
              · intro s0 hs0
                rw [hout] at hs0
                rcases List.suffix_cons_iff.1 hs0 with rfl | hs1
                · by_cases hc : c = '\n'
                  · subst hc
                    have hc3 := collapseLen_nl_count s hm
                    rw [List.takeWhile_cons_of_pos (by decide),
                      List.count_cons] at hc3
                    refine collapseLen_none_of_count _ ?_
                    rw [List.takeWhile_cons_of_pos (by decide),
                      List.count_cons]
                    simp only [beq_self_eq_true, if_true] at hc3 ⊢
                    omega
                  · exact collapseLen_cons_ne _ _ hc
                · exact ihNT s0 hs1
              · rw [hout]
                by_cases hc : pyIsSpace c = true
                · rw [List.takeWhile_cons_of_pos hc,
                    List.takeWhile_cons_of_pos hc,
                    List.count_cons, List.count_cons]
                  cases hbeq : c == '\n' <;> simp [hbeq] <;> omega
                · rw [List.takeWhile_cons_of_neg hc,
                    List.takeWhile_cons_of_neg hc]
          | some k =>
              obtain ⟨x, hx, hcount⟩ := collapseLen_some_spec _ k hm
              injection hx with hx1 hx2
              subst hx1
              subst hx2
              set w := ('\n' :: s).takeWhile pyIsSpace with hwdef
              set t := w.reverse.takeWhile (fun c => !(c == '\n')) with htdef
              have hm2 := hm
              rw [collapseLen_cons_nl, if_pos hcount] at hm2
              rw [← hwdef] at hm2
              rw [← htdef] at hm2
              have hk := Option.some.inj hm2
              have htle : t.length ≤ w.length := by
                have h1 : t.length ≤ w.reverse.length :=
                  (List.takeWhile_sublist _).length_le
                rw [List.length_reverse] at h1
                exact h1
              have htlt : t.length < w.length := by
                rcases Nat.lt_or_ge t.length w.length with h1 | h1
                · exact h1
                · exfalso
                  have heq : t = w.reverse := by
                    have h2 : t.length = w.reverse.length := by
                      rw [List.length_reverse]
                      omega
                    exact ( List.takeWhile_prefix _).eq_of_length h2
                  have hnl : '\n' ∈ w := List.count_pos_iff.1 (by omega)
                  rw [← List.mem_reverse, ← heq] at hnl
                  have := List.mem_takeWhile_imp hnl
                  simp at this
              have hk1 : 1 ≤ k := by omega
              have hwk : k ≤ w.length := by omega
              have hdrop : s.drop (k - 1) = ('\n' :: s).drop k := by
                cases k with
                | zero => omega
                | succ k2 => simp
              have hrest_tw : (('\n' :: s).drop k).takeWhile pyIsSpace =
                  w.drop k := by
                rw [hwdef]
                exact takeWhile_drop_of_le pyIsSpace k ('\n' :: s)
                  (by rw [← hwdef]; omega)
              have hnlcount : (w.drop k).count '\n' = 0 := by
                have h1 : w.reverse = t ++
                    w.reverse.dropWhile (fun c => !(c == '\n')) :=
                  ( List.takeWhile_append_dropWhile _ _).symm
                have hwdec : w = (w.reverse.dropWhile
                    (fun c => !(c == '\n'))).reverse ++ t.reverse := by
                  calc w = w.reverse.reverse := (List.reverse_reverse w).symm
                    _ = (t ++ w.reverse.dropWhile
                        (fun c => !(c == '\n'))).reverse := by rw [← h1]
                    _ = (w.reverse.dropWhile
                          (fun c => !(c == '\n'))).reverse ++ t.reverse := by
                        rw [List.reverse_append]
                have hlen : ((w.reverse.dropWhile
                    (fun c => !(c == '\n'))).reverse).length = k := by
                  have h2 := congrArg List.length h1
                  rw [List.length_reverse, List.length_append] at h2
                  rw [List.length_reverse]
                  omega
                rw [hwdec, List.drop_left' hlen, List.count_eq_zero]
                intro hmem
                rw [List.mem_reverse] at hmem
                have := List.mem_takeWhile_imp hmem
                simp at this
              have hrl : (s.drop (k - 1)).length ≤ fuel := by
                have := List.length_drop (k - 1) s
                omega
              obtain ⟨ihNT, ihCount⟩ := ih (s.drop (k - 1)) hrl
              have hout : subCollapseF (fuel + 1) ('\n' :: s) =
                  '\n' :: '\n' :: subCollapseF fuel (s.drop (k - 1)) := by
                simp only [subCollapseF, hm]
              have hrest_tw2 : (s.drop (k - 1)).takeWhile pyIsSpace =
                  w.drop k := by
                rw [hdrop]
                exact hrest_tw
              have hOcount : ((subCollapseF fuel
                  (s.drop (k - 1))).takeWhile pyIsSpace).count '\n' = 0 := by
                have h2 := ihCount
                rw [hrest_tw2] at h2
                omega
              refine ⟨?_, ?_⟩
              · intro s0 hs0
                rw [hout] at hs0
                rcases List.suffix_cons_iff.1 hs0 with rfl | hs1
                · refine collapseLen_none_of_count _ ?_
                  rw [List.takeWhile_cons_of_pos (by decide),
                    List.takeWhile_cons_of_pos (by decide),
                    List.count_cons, List.count_cons]
                  simp only [beq_self_eq_true, if_true]
                  omega
                · rcases List.suffix_cons_iff.1 hs1 with rfl | hs2
                  · refine collapseLen_none_of_count _ ?_
                    rw [List.takeWhile_cons_of_pos (by decide),
                      List.count_cons]
                    simp only [beq_self_eq_true, if_true]
                    omega
                  · exact ihNT s0 hs2
              · rw [hout]
                rw [List.takeWhile_cons_of_pos (by decide),
                  List.takeWhile_cons_of_pos (by decide),
                  List.count_cons, List.count_cons]
                simp only [beq_self_eq_true, if_true]
                omega

/-- On a string with no startable match anywhere, the collapse pass is the
identity, for every fuel. -/
theorem subCollapseF_id :
    ∀ fuel l, (∀ s, s <:+ l → collapseLen s = none) →
      subCollapseF fuel l = l := by
  intro fuel
  induction fuel with
  | zero =>
      intro l _
      rfl
  | succ fuel ih =>
      intro l hNT
      cases l with
      | nil => rfl
      | cons c s =>
          have hm : collapseLen (c :: s) = none := hNT _ List.suffix_rfl
          simp only [subCollapseF, hm]
          rw [ih s (fun s0 hs0 => hNT s0 (hs0.trans (List.suffix_cons c s)))]


/-- `WsDel` is reflexive. -/
theorem wsdel_refl : ∀ l : List Char, WsDel l l := by
  intro l
  induction l with
  | nil => exact WsDel.nil
  | cons c s ih => exact WsDel.keep c ih

/-- `WsDel` respects appending. -/
theorem wsdel_append {u1 v1 u2 v2 : List Char} (h1 : WsDel u1 v1)
    (h2 : WsDel u2 v2) : WsDel (u1 ++ u2) (v1 ++ v2) := by
  induction h1 with
  | nil => exact h2
  | keep c a ih => exact WsDel.keep c ih
  | del hc a ih => exact WsDel.del hc ih

/-- A run of spaces and tabs deletes to nothing. -/
theorem wsdel_all {tr : List Char}
    (h : ∀ c ∈ tr, (c == ' ' || c == '\t') = true) : WsDel tr [] := by
  induction tr with
  | nil => exact WsDel.nil
  | cons c s ih =>
      exact WsDel.del (h c (List.mem_cons_self _ _))
        (ih (fun d hd => h d (List.mem_cons_of_mem _ hd)))

/-- Stripping a line's trailing spaces and tabs is a `WsDel`. -/
theorem wsdel_rstripLine (l : List Char) : WsDel l (rstripLine l) := by
  have hdec : l = rstripLine l ++ (l.reverse.takeWhile
      (fun c => c == ' ' || c == '\t')).reverse := by
    unfold rstripLine
    calc l = l.reverse.reverse := (List.reverse_reverse l).symm
      _ = (l.reverse.takeWhile (fun c => c == ' ' || c == '\t') ++
          l.reverse.dropWhile (fun c => c == ' ' || c == '\t')).reverse := by
          rw [List.takeWhile_append_dropWhile]
      _ = (l.reverse.dropWhile (fun c => c == ' ' || c == '\t')).reverse ++
          (l.reverse.takeWhile (fun c => c == ' ' || c == '\t')).reverse := by
          rw [List.reverse_append]
  have htr : ∀ c ∈ (l.reverse.takeWhile
      (fun c => c == ' ' || c == '\t')).reverse,
      (c == ' ' || c == '\t') = true := by
    intro c hc
    rw [List.mem_reverse] at hc
    simpa using List.mem_takeWhile_imp hc
  have h2 := wsdel_append (wsdel_refl (rstripLine l)) (wsdel_all htr)
  rw [List.append_nil] at h2
  nth_rewrite 1 [hdec]
  exact h2

/-- `WsDel` cannot raise the newline count of the leading whitespace
run. -/
theorem wsdel_count {u v : List Char} (h : WsDel u v) :
    (v.takeWhile pyIsSpace).count '\n' ≤ (u.takeWhile pyIsSpace).count '\n' := by
  induction h with
  | nil => exact Nat.le_refl _
  | keep c a ih =>
      by_cases hc : pyIsSpace c = true
      · rw [List.takeWhile_cons_of_pos hc, List.takeWhile_cons_of_pos hc,
          List.count_cons, List.count_cons]
        omega
      · rw [List.takeWhile_cons_of_neg hc, List.takeWhile_cons_of_neg hc]
  | del hc a ih =>
      rename_i c u2 v2
      have hcs : pyIsSpace c = true := by
        rw [Bool.or_eq_true] at hc
        rcases hc with h1 | h1 <;> rw [eq_of_beq h1] <;> decide
      have hcn : (c == '\n') = false := by
        rw [Bool.or_eq_true] at hc
        rcases hc with h1 | h1 <;> rw [eq_of_beq h1] <;> decide
      rw [List.takeWhile_cons_of_pos hcs, List.count_cons, hcn]
      simp only [Bool.false_eq_true, if_false]
      omega

/-- Suffixes of a `WsDel` image come from suffixes of the original. -/
theorem wsdel_suffix {u v : List Char} (h : WsDel u v) :
    ∀ s, s <:+ v → ∃ s2, s2 <:+ u ∧ WsDel s2 s := by
  induction h with
  | nil =>
      intro s hs
      rw [List.suffix_nil.1 hs]
      exact ⟨[], List.suffix_rfl, WsDel.nil⟩
  | keep c a ih =>
      intro s hs
      rcases List.suffix_cons_iff.1 hs with rfl | hs1
      · exact ⟨_, List.suffix_rfl, WsDel.keep c a⟩
      · obtain ⟨s2, hsuf, hdel⟩ := ih s hs1
        exact ⟨s2, hsuf.trans (List.suffix_cons c _), hdel⟩
  | del hc a ih =>
      intro s hs
      obtain ⟨s2, hsuf, hdel⟩ := ih s hs
      exact ⟨s2, hsuf.trans (List.suffix_cons _ _), hdel⟩

/-- A kept newline head comes from a newline in the original. -/
theorem wsdel_head_nl {u v2 : List Char} (h : WsDel u ('\n' :: v2)) :
    ∃ u2, ('\n' :: u2) <:+ u ∧ WsDel u2 v2 := by
  have haux : ∀ u v, WsDel u v → ∀ w2, v = '\n' :: w2 →
      ∃ u2, ('\n' :: u2) <:+ u ∧ WsDel u2 w2 := by
    intro u v hd
    induction hd with
    | nil =>
        intro w2 he
        cases he
    | keep c a ih =>
        intro w2 he
        injection he with h1 h2
        subst h1
        subst h2
        exact ⟨_, List.suffix_rfl, a⟩
    | del hc a ih =>
        intro w2 he
        obtain ⟨u2, hsuf, hdel⟩ := ih w2 he
        exact ⟨u2, hsuf.trans (List.suffix_cons _ _), hdel⟩
  exact haux u _ h v2 rfl

/-- A `WsDel` image of a match-free string is match-free. -/
theorem nt_of_wsdel {u v : List Char}
    (hNT : ∀ s, s <:+ u → collapseLen s = none) (h : WsDel u v) :
    ∀ s, s <:+ v → collapseLen s = none := by
  intro s hs
  cases hcl : collapseLen s with
  | none => rfl
  | some k =>
      exfalso
      obtain ⟨x, rfl, hcount⟩ := collapseLen_some_spec s k hcl
      obtain ⟨s2, hsuf2, hdel2⟩ := wsdel_suffix h _ hs
      obtain ⟨u2, hsufnl, hdel3⟩ := wsdel_head_nl hdel2
      have hle := wsdel_count (WsDel.keep '\n' hdel3)
      rw [List.takeWhile_cons_of_pos (by decide),
        List.takeWhile_cons_of_pos (by decide),
        List.count_cons, List.count_cons] at hle
      rw [List.takeWhile_cons_of_pos (by decide), List.count_cons] at hcount
      have hnone := hNT ('\n' :: u2) (hsufnl.trans hsuf2)
      rw [collapseLen_cons_nl] at hnone
      rw [if_pos ?goal2] at hnone
      · cases hnone
      case goal2 =>
        rw [List.takeWhile_cons_of_pos (by decide), List.count_cons]
        simp only [beq_self_eq_true, if_true] at hle hcount ⊢
        omega

/-- An infix of a match-free string is match-free. -/
theorem nt_of_infix {v m : List Char}
    (hNT : ∀ s, s <:+ v → collapseLen s = none)
    (a b : List Char) (hv : v = a ++ m ++ b) :
    ∀ s, s <:+ m → collapseLen s = none := by
  intro s hs
  obtain ⟨x, hx⟩ := hs
  have hsb : (s ++ b) <:+ v := by
    refine ⟨a ++ x, ?_⟩
    rw [hv, ← hx]
    simp [List.append_assoc]
  exact collapseLen_none_of_append s b (hNT (s ++ b) hsb)

/-- The one-character split never returns an empty list of pieces. -/
theorem pySplitChar_ne_nil (sep : Char) (l : List Char) :
    pySplitChar sep l ≠ [] := by
  cases l with
  | nil => simp [pySplitChar]
  | cons c s =>
      by_cases hc : c = sep
      · subst hc
        simp [pySplitChar]
      · simp only [pySplitChar]
        rw [if_neg hc]
        split <;> simp

/-- Joining the one-character split restores the string. -/
theorem join_splitChar (sep : Char) : ∀ l,
    pyJoin [sep] (pySplitChar sep l) = l := by
  intro l
  induction l with
  | nil => rfl
  | cons c s ih =>
      by_cases hc : c = sep
      · subst hc
        rw [show pySplitChar c (c :: s) = [] :: pySplitChar c s from by
          simp [pySplitChar]]
        cases hX : pySplitChar c s with
        | nil => exact absurd hX (pySplitChar_ne_nil c s)
        | cons p r =>
            rw [hX] at ih
            show [] ++ [c] ++ pyJoin [c] (p :: r) = c :: s
            rw [← ih]
            rfl
      · cases hX : pySplitChar sep s with
        | nil => exact absurd hX (pySplitChar_ne_nil sep s)
        | cons p r =>
            have hsplit : pySplitChar sep (c :: s) = (c :: p) :: r := by
              simp [pySplitChar, hc, hX]
            rw [hsplit]
            rw [hX] at ih
            cases r with
            | nil =>
                have hps : p = s := ih
                show c :: p = c :: s
                rw [hps]
            | cons p2 r2 =>
                show (c :: p) ++ [sep] ++ pyJoin [sep] (p2 :: r2) = c :: s
                rw [← ih]
                rfl

/-- The per-line strip of every joined piece is a `WsDel` of the join. -/
theorem wsdel_join : ∀ M : List (List Char),
    WsDel (pyJoin ['\n'] M) (pyJoin ['\n'] (M.map rstripLine)) := by
  intro M
  induction M with
  | nil => exact WsDel.nil
  | cons m M ih =>
      cases M with
      | nil => exact wsdel_rstripLine m
      | cons m2 M2 =>
          exact wsdel_append (wsdel_append (wsdel_rstripLine m)
            (wsdel_refl ['\n'])) ih

/-- The multiline trailing-whitespace pass is a `WsDel`. -/
theorem wsdel_rstripLines (l : List Char) : WsDel l (rstripLines l) := by
  have h := wsdel_join (pySplitChar '\n' l)
  rw [join_splitChar] at h
  exact h

/-- `pyStrip` extracts an infix. -/
theorem pyStrip_infix (v : List Char) :
    ∃ a b, v = a ++ pyStrip v ++ b := by
  refine ⟨v.takeWhile pyIsSpace,
    ((v.dropWhile pyIsSpace).reverse.takeWhile pyIsSpace).reverse, ?_⟩
  have hinner : v.dropWhile pyIsSpace =
      ((v.dropWhile pyIsSpace).reverse.dropWhile pyIsSpace).reverse ++
      ((v.dropWhile pyIsSpace).reverse.takeWhile pyIsSpace).reverse := by
    calc v.dropWhile pyIsSpace
        = (v.dropWhile pyIsSpace).reverse.reverse :=
          (List.reverse_reverse _).symm
      _ = ((v.dropWhile pyIsSpace).reverse.takeWhile pyIsSpace ++
          (v.dropWhile pyIsSpace).reverse.dropWhile pyIsSpace).reverse := by
          rw [List.takeWhile_append_dropWhile]
      _ = _ := by rw [List.reverse_append]
  rw [pyStrip]
  calc v = v.takeWhile pyIsSpace ++ v.dropWhile pyIsSpace :=
        (List.takeWhile_append_dropWhile _ _).symm
    _ = v.takeWhile pyIsSpace ++
        (((v.dropWhile pyIsSpace).reverse.dropWhile pyIsSpace).reverse ++
        ((v.dropWhile pyIsSpace).reverse.takeWhile pyIsSpace).reverse) := by
        rw [← hinner]
    _ = _ := (List.append_assoc _ _ _).symm

/-- The output of `_clean_whitespace` admits no collapse match anywhere. -/
theorem nt_clean_whitespace (t : List Char) :
    ∀ s, s <:+ clean_whitespace t → collapseLen s = none := by
  have h1 : ∀ s, s <:+ subCollapse t → collapseLen s = none :=
    (subCollapseF_spec t.length t (Nat.le_refl _)).1
  have h2 := nt_of_wsdel h1 (wsdel_rstripLines (subCollapse t))
  obtain ⟨a, b, hab⟩ := pyStrip_infix (rstripLines (subCollapse t))
  exact nt_of_infix h2 a b hab


/-- The head surviving a `dropWhile` fails the predicate. -/
theorem head?_dropWhile_neg (p : Char → Bool) :
    ∀ (l : List Char) (c : Char),
      (l.dropWhile p).head? = some c → p c = false := by
  intro l
  induction l with
  | nil =>
      intro c h
      cases h
  | cons a s ih =>
      intro c h
      by_cases hp : p a = true
      · rw [List.dropWhile_cons_of_pos hp] at h
        exact ih c h
      · rw [List.dropWhile_cons_of_neg hp] at h
        have ha : a = c := by simpa using h
        subst ha
        exact Bool.eq_false_iff.2 hp

/-- A list whose head fails the predicate is untouched by `dropWhile`. -/
theorem dropWhile_eq_self_of_head (p : Char → Bool) (l : List Char)
    (h : ∀ c, l.head? = some c → p c = false) : l.dropWhile p = l := by
  cases l with
  | nil => rfl
  | cons a s =>
      refine List.dropWhile_cons_of_neg ?_
      have := h a rfl
      simp [this]

/-- The last character of a stripped line is not a space or tab. -/
theorem rstripLine_getLast (l : List Char) :
    ∀ c, (rstripLine l).getLast? = some c → (c == ' ' || c == '\t') = false := by
  intro c hc
  unfold rstripLine at hc
  rw [List.getLast?_reverse] at hc
  exact head?_dropWhile_neg _ _ c hc

/-- A line not ending in a space or tab is untouched by the strip. -/
theorem rstripLine_eq_self (l : List Char)
    (h : ∀ c, l.getLast? = some c → (c == ' ' || c == '\t') = false) :
    rstripLine l = l := by
  unfold rstripLine
  rw [dropWhile_eq_self_of_head _ _ ?_, List.reverse_reverse]
  intro c hc
  rw [List.head?_reverse] at hc
  exact h c hc

/-- Characters of a stripped line come from the line. -/
theorem mem_rstripLine (l : List Char) (c : Char) (h : c ∈ rstripLine l) :
    c ∈ l := by
  unfold rstripLine at h
  rw [List.mem_reverse] at h
  have h2 := (List.dropWhile_sublist _).subset h
  rw [List.mem_reverse] at h2
  exact h2

/-- Splitting a separator-free piece returns the piece alone. -/
theorem splitChar_not_mem_eq (sep : Char) :
    ∀ m : List Char, sep ∉ m → pySplitChar sep m = [m] := by
  intro m
  induction m with
  | nil =>
      intro _
      rfl
  | cons c s ih =>
      intro hm
      have hcne : ¬ c = sep := by
        intro he
        exact hm (by rw [← he]; exact List.mem_cons_self _ _)
      have hs : sep ∉ s := fun hmem => hm (List.mem_cons_of_mem _ hmem)
      simp only [pySplitChar]
      rw [if_neg hcne, ih hs]

/-- Splitting after a separator-free prefix peels that prefix. -/
theorem splitChar_append (sep : Char) :
    ∀ m r : List Char, sep ∉ m →
      pySplitChar sep (m ++ sep :: r) = m :: pySplitChar sep r := by
  intro m
  induction m with
  | nil =>
      intro r _
      simp [pySplitChar]
  | cons c s ih =>
      intro r hm
      have hcne : ¬ c = sep := by
        intro he
        exact hm (by rw [← he]; exact List.mem_cons_self _ _)
      have hs : sep ∉ s := fun hmem => hm (List.mem_cons_of_mem _ hmem)
      rw [List.cons_append]
      simp only [pySplitChar]
      rw [if_neg hcne, ih r hs]

/-- Splitting a join of separator-free pieces recovers the pieces. -/
theorem splitChar_join (sep : Char) :
    ∀ M : List (List Char), M ≠ [] → (∀ m ∈ M, sep ∉ m) →
      pySplitChar sep (pyJoin [sep] M) = M := by
  intro M
  induction M with
  | nil =>
      intro h _
      exact absurd rfl h
  | cons m M ih =>
      intro _ hfree
      cases M with
      | nil => exact splitChar_not_mem_eq sep m (hfree m (List.mem_cons_self _ _))
      | cons m2 M2 =>
          have hjoin : pyJoin [sep] (m :: m2 :: M2) =
              m ++ sep :: pyJoin [sep] (m2 :: M2) := by
            show m ++ [sep] ++ pyJoin [sep] (m2 :: M2) = _
            rw [List.append_assoc]
            rfl
          rw [hjoin, splitChar_append sep m _ (hfree m (List.mem_cons_self _ _)),
            ih (by simp) (fun q hq => hfree q (List.mem_cons_of_mem _ hq))]

/-- Pieces of a split never contain the separator. -/
theorem splitChar_not_mem (sep : Char) :
    ∀ l, ∀ p ∈ pySplitChar sep l, sep ∉ p := by
  intro l
  induction l with
  | nil =>
      intro p hp
      simp only [pySplitChar, List.mem_singleton] at hp
      subst hp
      simp
  | cons c s ih =>
      intro p hp
      by_cases hc : c = sep
      · subst hc
        rw [show pySplitChar c (c :: s) = [] :: pySplitChar c s from by
          simp [pySplitChar]] at hp
        rcases List.mem_cons.1 hp with rfl | hp2
        · simp
        · exact ih p hp2
      · cases hX : pySplitChar sep s with
        | nil => exact absurd hX (pySplitChar_ne_nil sep s)
        | cons q r =>
            rw [show pySplitChar sep (c :: s) = (c :: q) :: r from by
              simp [pySplitChar, hc, hX]] at hp
            rcases List.mem_cons.1 hp with rfl | hp2
            · intro hmem
              rcases List.mem_cons.1 hmem with he | he
              · exact hc he.symm
              · exact ih q (by rw [hX]; exact List.mem_cons_self _ _) he
            · exact ih p (by rw [hX]; exact List.mem_cons_of_mem _ hp2)

/-- The pieces of the multiline strip are the stripped pieces. -/
theorem splitChar_rstripLines (l : List Char) :
    pySplitChar '\n' (rstripLines l) =
      (pySplitChar '\n' l).map rstripLine := by
  unfold rstripLines
  refine splitChar_join '\n' _ ?_ ?_
  · rw [Ne, List.map_eq_nil_iff]
    exact pySplitChar_ne_nil '\n' l
  · intro m hm
    rcases List.mem_map.1 hm with ⟨p, hp, rfl⟩
    intro hmem
    exact splitChar_not_mem '\n' l p hp (mem_rstripLine p '\n' hmem)

/-- The multiline strip fixes a string whose pieces it cannot shorten. -/
theorem rstripLines_eq_self (l : List Char)
    (h : ∀ p ∈ pySplitChar '\n' l, rstripLine p = p) : rstripLines l = l := by
  unfold rstripLines
  rw [(List.map_congr_left h).trans (List.map_id _), join_splitChar]

/-- The first character of a stripped string is not whitespace. -/
theorem pyStrip_head (v : List Char) :
    ∀ c, (pyStrip v).head? = some c → pyIsSpace c = false := by
  intro c hc
  unfold pyStrip at hc
  rw [List.head?_reverse] at hc
  have hne : (v.dropWhile pyIsSpace).reverse.dropWhile pyIsSpace ≠ [] := by
    intro he
    rw [he] at hc
    cases hc
  rw [← drop_length_takeWhile pyIsSpace] at hc hne
  rw [getLast?_drop_of_ne_nil _ _ hne, List.getLast?_reverse] at hc
  exact head?_dropWhile_neg _ _ c hc

/-- The last character of a stripped string is not whitespace. -/
theorem pyStrip_getLast (v : List Char) :
    ∀ c, (pyStrip v).getLast? = some c → pyIsSpace c = false := by
  intro c hc
  unfold pyStrip at hc
  rw [List.getLast?_reverse] at hc
  exact head?_dropWhile_neg _ _ c hc

/-- `str.strip()` is idempotent. -/
theorem pyStrip_idem (v : List Char) : pyStrip (pyStrip v) = pyStrip v := by
  conv_lhs => rw [pyStrip]
  rw [dropWhile_eq_self_of_head _ _ (fun c hc => pyStrip_head v c hc),
    dropWhile_eq_self_of_head _ _ ?_, List.reverse_reverse]
  intro c hc
  rw [List.head?_reverse] at hc
  exact pyStrip_getLast v c hc


/-- Piece conditions transfer from a string to its tail. -/
theorem pieces_tail (x : Char) (s : List Char)
    (hps : ∀ p ∈ pySplitChar '\n' (x :: s), ∀ c, p.getLast? = some c →
      (c == ' ' || c == '\t') = false) :
    ∀ p ∈ pySplitChar '\n' s, ∀ c, p.getLast? = some c →
      (c == ' ' || c == '\t') = false := by
  intro p hp c2 hc2
  by_cases hx : x = '\n'
  · subst hx
    refine hps p ?_ c2 hc2
    rw [show pySplitChar '\n' ('\n' :: s) = [] :: pySplitChar '\n' s from by
      simp [pySplitChar]]
    exact List.mem_cons_of_mem _ hp
  · cases hX : pySplitChar '\n' s with
    | nil => exact absurd hX (pySplitChar_ne_nil _ _)
    | cons q r =>
        rw [hX] at hp
        rcases List.mem_cons.1 hp with he | hp2
        · refine hps (x :: q) ?_ c2 ?_
          · rw [show pySplitChar '\n' (x :: s) = (x :: q) :: r from by
              simp [pySplitChar, hx, hX]]
            exact List.mem_cons_self _ _
          · rw [he] at hc2
            cases hq : q with
            | nil =>
                rw [hq] at hc2
                simp at hc2
            | cons q0 qs =>
                rw [hq] at hc2
                rw [List.getLast?_cons_cons]
                exact hc2
        · refine hps p ?_ c2 hc2
          rw [show pySplitChar '\n' (x :: s) = (x :: q) :: r from by
            simp [pySplitChar, hx, hX]]
          exact List.mem_cons_of_mem _ hp2

/-- If every piece of the newline split ends well, no space or tab stands
immediately before a newline. -/
theorem pairs_of_pieces : ∀ l : List Char,
    (∀ p ∈ pySplitChar '\n' l, ∀ c, p.getLast? = some c →
      (c == ' ' || c == '\t') = false) →
    ∀ a b (c : Char), l = a ++ c :: '\n' :: b →
      (c == ' ' || c == '\t') = false := by
  intro l
  induction l with
  | nil =>
      intro _ a b c he
      exact absurd he (by simp)
  | cons x s ih =>
      intro hps a b c he
      cases a with
      | nil =>
          rw [List.nil_append] at he
          injection he with h1 h2
          subst h1
          subst h2
          by_cases hx : x = '\n'
          · subst hx
            decide
          · refine hps [x] ?_ x (by simp)
            rw [show pySplitChar '\n' (x :: '\n' :: b) =
                [x] :: pySplitChar '\n' b from by simp [pySplitChar, hx]]
            exact List.mem_cons_self _ _
      | cons a0 a2 =>
          rw [List.cons_append] at he
          injection he with h1 h2
          exact ih (pieces_tail x s hps) a2 b c h2

/-- If every piece of the newline split ends well, the string ends
well. -/
theorem lastOk_of_pieces : ∀ l : List Char,
    (∀ p ∈ pySplitChar '\n' l, ∀ c, p.getLast? = some c →
      (c == ' ' || c == '\t') = false) →
    ∀ c, l.getLast? = some c → (c == ' ' || c == '\t') = false := by
  intro l
  induction l with
  | nil =>
      intro _ c hc
      simp at hc
  | cons x s ih =>
      intro hps c hc
      cases s with
      | nil =>
          have hxc : x = c := by simpa using hc
          subst hxc
          by_cases hx : x = '\n'
          · subst hx
            decide
          · refine hps [x] ?_ x (by simp)
            rw [show pySplitChar '\n' [x] = [[x]] from by
              simp [pySplitChar, hx]]
            exact List.mem_singleton.2 rfl
      | cons d rs =>
          rw [List.getLast?_cons_cons] at hc
          exact ih (pieces_tail x (d :: rs) hps) c hc

/-- Strings satisfying the pair and end conditions split into pieces that
all end well. -/
theorem pieces_lastOk_of_pairs : ∀ l : List Char,
    (∀ a b (c : Char), l = a ++ c :: '\n' :: b →
      (c == ' ' || c == '\t') = false) →
    (∀ c, l.getLast? = some c → (c == ' ' || c == '\t') = false) →
    ∀ p ∈ pySplitChar '\n' l, ∀ c, p.getLast? = some c →
      (c == ' ' || c == '\t') = false := by
  intro l
  induction l with
  | nil =>
      intro _ _ p hp
      simp only [pySplitChar, List.mem_singleton] at hp
      subst hp
      intro c hc
      simp at hc
  | cons a s ih =>
      intro hP hL p hp
      have hPs : ∀ a2 b (c : Char), s = a2 ++ c :: '\n' :: b →
          (c == ' ' || c == '\t') = false := by
        intro a2 b c he
        exact hP (a :: a2) b c (by rw [he]; rfl)
      have hLs : ∀ c, s.getLast? = some c →
          (c == ' ' || c == '\t') = false := by
        intro c hc
        cases s with
        | nil => simp at hc
        | cons d rs =>
            apply hL
            rw [List.getLast?_cons_cons]
            exact hc
      by_cases ha : a = '\n'
      · subst ha
        rw [show pySplitChar '\n' ('\n' :: s) = [] :: pySplitChar '\n' s from by
          simp [pySplitChar]] at hp
        rcases List.mem_cons.1 hp with he | hp2
        · intro c hc
          rw [he] at hc
          simp at hc
        · exact ih hPs hLs p hp2
      · cases hX : pySplitChar '\n' s with
        | nil => exact absurd hX (pySplitChar_ne_nil _ _)
        | cons q r =>
            rw [show pySplitChar '\n' (a :: s) = (a :: q) :: r from by
              simp [pySplitChar, ha, hX]] at hp
            have hihs := ih hPs hLs
            rcases List.mem_cons.1 hp with he | hp2
            · intro c hc
              rw [he] at hc
              cases hq : q with
              | nil =>
                  rw [hq] at hc
                  have hca : a = c := by simpa using hc
                  subst hca
                  cases s with
                  | nil => exact hL a (by simp)
                  | cons d rs =>
                      by_cases hd : d = '\n'
                      · subst hd
                        exact hP [] rs a rfl
                      · exfalso
                        cases hX2 : pySplitChar '\n' rs with
                        | nil => exact absurd hX2 (pySplitChar_ne_nil _ _)
                        | cons q2 r2 =>
                            rw [show pySplitChar '\n' (d :: rs) =
                                (d :: q2) :: r2 from by
                              simp [pySplitChar, hd, hX2]] at hX
                            injection hX with hXa hXb
                            rw [hq] at hXa
                            cases hXa
              | cons q0 qs =>
                  refine hihs (q0 :: qs) ?_ c ?_
                  · rw [hX, hq]
                    exact List.mem_cons_self _ _
                  · rw [hq] at hc
                    rw [List.getLast?_cons_cons] at hc
                    exact hc
            · exact hihs p (by rw [hX]; exact List.mem_cons_of_mem _ hp2)

/-- Claim C4 (amended): `clean_text` itself is not idempotent (see the
counterexample), but the whitespace-normalization pass
`_clean_whitespace` is: applying it to its own output returns that
output unchanged, as the spec's testable property asks. -/
theorem c4_whitespace_idempotent (t : List Char) :
    clean_whitespace (clean_whitespace t) = clean_whitespace t := by
  have hNT := nt_clean_whitespace t
  have hsc : subCollapse (clean_whitespace t) = clean_whitespace t :=
    subCollapseF_id (clean_whitespace t).length (clean_whitespace t) hNT
  have hpieces_v : ∀ p ∈ pySplitChar '\n' (rstripLines (subCollapse t)),
      ∀ c, p.getLast? = some c → (c == ' ' || c == '\t') = false := by
    simp only [splitChar_rstripLines]
    intro p hp
    rcases List.mem_map.1 hp with ⟨q, hq, rfl⟩
    exact rstripLine_getLast q
  have hpairs_v := pairs_of_pieces _ hpieces_v
  have hpairs_w : ∀ a b (c : Char),
      clean_whitespace t = a ++ c :: '\n' :: b →
      (c == ' ' || c == '\t') = false := by
    obtain ⟨a0, b0, hab⟩ := pyStrip_infix (rstripLines (subCollapse t))
    intro a b c he
    refine hpairs_v (a0 ++ a) (b ++ b0) c ?_
    have he2 : pyStrip (rstripLines (subCollapse t)) =
        a ++ c :: '\n' :: b := he
    rw [hab, he2]
    simp [List.append_assoc]
  have hlast_w : ∀ c, (clean_whitespace t).getLast? = some c →
      (c == ' ' || c == '\t') = false := by
    intro c hc
    have h1 : pyIsSpace c = false :=
      pyStrip_getLast (rstripLines (subCollapse t)) c hc
    cases hsp : (c == ' ' || c == '\t') with
    | false => rfl
    | true =>
        exfalso
        rw [Bool.or_eq_true] at hsp
        rcases hsp with h2 | h2 <;> rw [eq_of_beq h2] at h1 <;>
          exact absurd h1 (by decide)
  have hpieces_w := pieces_lastOk_of_pairs _ hpairs_w hlast_w
  have hrsw : rstripLines (clean_whitespace t) = clean_whitespace t :=
    rstripLines_eq_self _ (fun p hp => rstripLine_eq_self p (hpieces_w p hp))
  have hstw : pyStrip (clean_whitespace t) = clean_whitespace t :=
    pyStrip_idem (rstripLines (subCollapse t))
  show pyStrip (rstripLines (subCollapse (clean_whitespace t))) =
    clean_whitespace t
  rw [hsc, hrsw, hstw]


end Claims
